import Mathlib

/-!
Verification development for the pytest-orisa coordination core.

The Python sources are shallowly embedded as Lean definitions:

* `domain.py`       — `EventType`, `Event`, `Event.serialize`, `Event.deserialize`
  (the JSON text format of `json.dumps` / `json.loads` is embedded as the
  `Json` type together with the printer `printJson` and the whole-buffer
  parser `decodeJson` below);
* `event_dispatcher.py` — the per-message dispatch step of
  `EventDispatcher.handle_client`, `register_handler`, `get_event_data`,
  the per-connection framing step, and `send_event`;
* `plugin.py`       — `build_pytest_tree` / `add_to_tree` and `run_node`;
* `app.py`          — `OrisaApp.handle_process_result` and the
  output-streaming / cancellation behaviour of `OrisaApp.run_node`.

Python dicts that are used in insertion order are embedded as association
lists with unique keys; `dict[k] = v` is `assocSet`, `dict.get(k)` is
`assocGet`.  Mutation of a dict value in place is `assocModify`.
-/

set_option maxHeartbeats 1000000

/-! ### Association lists (insertion-ordered Python dicts) -/

/-- Python `d.get(k)`: the value stored under the first (hence, with unique
keys, the only) occurrence of `k`. -/
def assocGet {α : Type} : List (String × α) → String → Option α
  | [], _ => none
  | (k', v) :: rest, k => if k' = k then some v else assocGet rest k

/-- Python `d[k] = v`: replace the value under `k`, or append a new entry. -/
def assocSet {α : Type} : List (String × α) → String → α → List (String × α)
  | [], k, v => [(k, v)]
  | (k', v') :: rest, k, v =>
    if k' = k then (k, v) :: rest else (k', v') :: assocSet rest k v

/-- In-place mutation of the value stored under `k` (no-op if `k` is absent). -/
def assocModify {α : Type} : List (String × α) → String → (α → α) → List (String × α)
  | [], _, _ => []
  | (k', v) :: rest, k, f =>
    if k' = k then (k', f v) :: rest else (k', v) :: assocModify rest k f

/-! ### The JSON value model

`json.dumps` / `json.loads` handle the full JSON grammar; the embedding
covers the fragment the wire protocol of this repository uses: null,
booleans, integers, strings whose characters need no escaping (`wfStr`
below: printable ASCII other than `"` and `\`), arrays and objects.  The
printer follows the default separators of `json.dumps` (`", "` and `": "`);
the parser follows `json.loads` in skipping ASCII whitespace and rejecting
trailing data after the first complete value. -/

inductive Json where
  | null : Json
  | bool (b : Bool) : Json
  | num (n : Int) : Json
  | str (s : String) : Json
  | arr (xs : List Json) : Json
  | obj (kvs : List (String × Json)) : Json

/-- A string the printer may emit verbatim between quotes: printable ASCII
with no `"` and no backslash (`json.dumps` would escape anything else). -/
def wfStr (s : String) : Bool :=
  s.data.all (fun c => 32 ≤ c.toNat && c.toNat ≤ 126 && c ≠ '"' && c ≠ '\\')

mutual
/-- Well-formed values: every string that will be printed is `wfStr`. -/
def wfJson : Json → Bool
  | .null => true
  | .bool _ => true
  | .num _ => true
  | .str s => wfStr s
  | .arr xs => wfArr xs
  | .obj kvs => wfObj kvs
def wfArr : List Json → Bool
  | [] => true
  | x :: xs => wfJson x && wfArr xs
def wfObj : List (String × Json) → Bool
  | [] => true
  | (k, v) :: kvs => wfStr k && wfJson v && wfObj kvs
end

/-! #### Decimal digits (the integer part of the printer and parser) -/

/-- The character of one decimal digit. -/
def digitChar (d : Nat) : Char :=
  match d with
  | 0 => '0' | 1 => '1' | 2 => '2' | 3 => '3' | 4 => '4'
  | 5 => '5' | 6 => '6' | 7 => '7' | 8 => '8' | _ => '9'

/-- Decimal digits of `n`, most significant first, in front of `acc`. -/
def natChars (n : Nat) (acc : List Char) : List Char :=
  if h : n < 10 then digitChar n :: acc
  else natChars (n / 10) (digitChar (n % 10) :: acc)
termination_by n
decreasing_by exact Nat.div_lt_self (by omega) (by omega)

/-- `repr` of a Python int, as `json.dumps` emits it. -/
def intChars (n : Int) : List Char :=
  if n < 0 then '-' :: natChars n.natAbs [] else natChars n.natAbs []

/-- Numeric value of a digit character. -/
def digitVal (c : Char) : Nat := c.toNat - 48

/-- Decimal value of a digit run, most significant first. -/
def digitsVal (ds : List Char) : Nat :=
  ds.foldl (fun a c => 10 * a + digitVal c) 0

/-! #### The printer (`json.dumps` with default separators) -/

mutual
def printJson : Json → List Char
  | .null => 'n' :: ['u', 'l', 'l']
  | .bool true => 't' :: ['r', 'u', 'e']
  | .bool false => 'f' :: ['a', 'l', 's', 'e']
  | .num n => intChars n
  | .str s => '"' :: s.data ++ ['"']
  | .arr xs => '[' :: printArr xs ++ [']']
  | .obj kvs => '{' :: printObj kvs ++ ['}']
def printArr : List Json → List Char
  | [] => []
  | [x] => printJson x
  | x :: y :: xs => printJson x ++ [',', ' '] ++ printArr (y :: xs)
def printObj : List (String × Json) → List Char
  | [] => []
  | [(k, v)] => '"' :: k.data ++ ['"', ':', ' '] ++ printJson v
  | (k, v) :: m :: kvs =>
    '"' :: k.data ++ ['"', ':', ' '] ++ printJson v ++ [',', ' '] ++ printObj (m :: kvs)
end

/-! #### The parser (`json.loads` on the whole buffer) -/

/-- JSON whitespace. -/
def isWsChar (c : Char) : Bool := c = ' ' || c = '\t' || c = '\n' || c = '\r'

/-- Drop leading whitespace. -/
def dropWs (cs : List Char) : List Char := cs.dropWhile isWsChar

/-- Split a leading run of decimal digits. -/
def spanDigits : List Char → List Char × List Char
  | [] => ([], [])
  | c :: cs =>
    if c.isDigit then
      let p := spanDigits cs
      (c :: p.1, p.2)
    else ([], c :: cs)

/-- Parse an unsigned decimal integer (at least one digit). -/
def parseNat (cs : List Char) : Option (Nat × List Char) :=
  match spanDigits cs with
  | ([], _) => none
  | (ds, rest) => some (digitsVal ds, rest)

/-- Read a string body up to the closing quote (the embedding's strings
contain no escapes, so `json.loads`'s escape handling never fires on them). -/
def parseStrBody (cs : List Char) : Option (String × List Char) :=
  match cs.dropWhile (fun c => c ≠ '"') with
  | [] => none
  | _ :: rest => some (⟨cs.takeWhile (fun c => c ≠ '"')⟩, rest)

mutual
/-- One JSON value, starting at a non-whitespace character.  The fuel
argument only bounds recursion depth; `jsonFuel` below is always enough. -/
def parseValue : Nat → List Char → Option (Json × List Char)
  | 0, _ => none
  | f + 1, cs =>
    match cs with
    | 'n' :: 'u' :: 'l' :: 'l' :: r => some (.null, r)
    | 't' :: 'r' :: 'u' :: 'e' :: r => some (.bool true, r)
    | 'f' :: 'a' :: 'l' :: 's' :: 'e' :: r => some (.bool false, r)
    | '"' :: r =>
      match parseStrBody r with
      | some (s, r') => some (.str s, r')
      | none => none
    | '[' :: r => parseArrBody f r
    | '{' :: r => parseObjBody f r
    | '-' :: r =>
      match parseNat r with
      | some (m, r') => some (.num (-(m : Int)), r')
      | none => none
    | c :: r =>
      if c.isDigit then
        match parseNat (c :: r) with
        | some (m, r') => some (.num (m : Int), r')
        | none => none
      else none
    | [] => none
/-- After `[`: the empty array, or one-or-more comma-separated values. -/
def parseArrBody : Nat → List Char → Option (Json × List Char)
  | 0, _ => none
  | f + 1, r =>
    match dropWs r with
    | ']' :: r' => some (.arr [], r')
    | r1 =>
      match parseValue f r1 with
      | some (x, r2) =>
        match parseArrTail f r2 with
        | some (xs, r3) => some (.arr (x :: xs), r3)
        | none => none
      | none => none
/-- After one array element: `]`, or `,` and further elements. -/
def parseArrTail : Nat → List Char → Option (List Json × List Char)
  | 0, _ => none
  | f + 1, r =>
    match dropWs r with
    | ']' :: r' => some ([], r')
    | ',' :: r' =>
      match parseValue f (dropWs r') with
      | some (x, r2) =>
        match parseArrTail f r2 with
        | some (xs, r3) => some (x :: xs, r3)
        | none => none
      | none => none
    | _ => none
/-- After `{`: the empty object, or one-or-more `"key": value` members. -/
def parseObjBody : Nat → List Char → Option (Json × List Char)
  | 0, _ => none
  | f + 1, r =>
    match dropWs r with
    | '}' :: r' => some (.obj [], r')
    | '"' :: r1 =>
      match parseMember f r1 with
      | some (k, v, r2) =>
        match parseObjTail f r2 with
        | some (kvs, r3) => some (.obj ((k, v) :: kvs), r3)
        | none => none
      | none => none
    | _ => none
/-- A member after its opening quote: key, `:`, value. -/
def parseMember : Nat → List Char → Option (String × Json × List Char)
  | 0, _ => none
  | f + 1, r1 =>
    match parseStrBody r1 with
    | some (k, r2) =>
      match dropWs r2 with
      | ':' :: r3 =>
        match parseValue f (dropWs r3) with
        | some (v, r4) => some (k, v, r4)
        | none => none
      | _ => none
    | none => none
/-- After one member: `}`, or `,` and further members. -/
def parseObjTail : Nat → List Char → Option (List (String × Json) × List Char)
  | 0, _ => none
  | f + 1, r =>
    match dropWs r with
    | '}' :: r' => some ([], r')
    | ',' :: r' =>
      match dropWs r' with
      | '"' :: r1 =>
        match parseMember f r1 with
        | some (k, v, r2) =>
          match parseObjTail f r2 with
          | some (kvs, r3) => some ((k, v) :: kvs, r3)
          | none => none
        | none => none
      | _ => none
    | _ => none
end

/-- Fuel that always suffices: one unit per character plus one. -/
def jsonFuel (cs : List Char) : Nat := cs.length + 1

/-- `json.loads` on a whole buffer: exactly one value, surrounded only by
whitespace; anything else (including trailing data) is a `JSONDecodeError`,
embedded as `none`. -/
def decodeJson (cs : List Char) : Option Json :=
  match parseValue (jsonFuel cs) (dropWs cs) with
  | some (j, r) => if dropWs r = [] then some j else none
  | none => none

/-! ### `domain.py`: `EventType` and `Event` -/

/-- `EventType(str, Enum)` from `domain.py`. -/
inductive EventType where
  | TESTS_COLLECTED | TESTS_SCHEDULED | TEST_OUTCOME | REPORT
deriving DecidableEq

/-- The `str` value of an `EventType` member. -/
def EventType.value : EventType → String
  | .TESTS_COLLECTED => "TESTS_COLLECTED"
  | .TESTS_SCHEDULED => "TESTS_SCHEDULED"
  | .TEST_OUTCOME => "TEST_OUTCOME"
  | .REPORT => "REPORT"

/-- `EventType(s)`: look a member up by value (`ValueError` is `none`). -/
def EventType.ofValue (s : String) : Option EventType :=
  match s with
  | "TESTS_COLLECTED" => some .TESTS_COLLECTED
  | "TESTS_SCHEDULED" => some .TESTS_SCHEDULED
  | "TEST_OUTCOME" => some .TEST_OUTCOME
  | "REPORT" => some .REPORT
  | _ => none

/-- The frozen dataclass `Event` (`data: dict | list` is a `Json` value). -/
structure Event where
  type : EventType
  data : Json

/-- The JSON object `{"type": ..., "data": ...}` that `Event.serialize`
passes to `json.dumps`. -/
def Event.toJson (e : Event) : Json :=
  .obj [("type", .str e.type.value), ("data", e.data)]

/-- `Event.serialize`: `json.dumps({"type": self.type, "data": self.data})`. -/
def Event.serialize (e : Event) : String := ⟨printJson e.toJson⟩

/-- `Event.deserialize`: `json.loads` then field access.  Python raises
(`JSONDecodeError`, `TypeError`, `KeyError`, `ValueError`) where this
returns `none`. -/
def Event.deserialize (s : String) : Option Event :=
  match decodeJson s.data with
  | some (.obj kvs) =>
    match assocGet kvs "type", assocGet kvs "data" with
    | some (.str t), some d =>
      match EventType.ofValue t with
      | some ty => some ⟨ty, d⟩
      | none => none
    | _, _ => none
  | _ => none

/-! ### `event_dispatcher.py`: dispatch, last-value store, framing, sender -/

/-- The mutable state of `EventDispatcher`: the handler registry and the
last-value store.  Handlers are opaque callables, represented by ids;
Python functions are always truthy, so `if handler:` is `isSome`. -/
structure DispatcherState where
  event_handlers : List (String × Nat)
  event_data : List (String × Json)

/-- `register_handler`: replaces any prior handler for the type. -/
def register_handler (s : DispatcherState) (event_type : String) (h : Nat) :
    DispatcherState :=
  { s with event_handlers := assocSet s.event_handlers event_type h }

/-- `get_event_data`: `self.event_data.get(event_type, None)`. -/
def get_event_data (s : DispatcherState) (event_type : String) : Option Json :=
  assocGet s.event_data event_type

/-- The body of `handle_client` once `json.loads` succeeded (lines 42-56):
look the handler up, invoke it if present, store the payload if the type has
no registered handler, then clear the buffer.  Returns the new state and the
list of handler invocations `(handler id, argument)` performed. -/
def process_event (s : DispatcherState) (event_type : String) (data : Json) :
    DispatcherState × List (Nat × Json) :=
  let handler := assocGet s.event_handlers event_type
  let calls := match handler with
    | some h => [(h, data)]
    | none => []
  let s' :=
    if (assocGet s.event_handlers event_type).isSome then s
    else { s with event_data := assocSet s.event_data event_type data }
  (s', calls)

/-- Fold a sequence of decoded messages through `process_event`, keeping only
the state. -/
def process_events (s : DispatcherState) (msgs : List (String × Json)) :
    DispatcherState :=
  msgs.foldl (fun st m => (process_event st m.1 m.2).1) s

/-- One `recv` iteration of `handle_client` (lines 31-60): append the chunk
to the connection's text buffer, try to decode the entire buffer, and on
success clear it.  Returns the new buffer and the decoded value, if any
(`none` both for incomplete and for malformed buffers). -/
def connStep (buffer chunk : List Char) : List Char × Option Json :=
  let b := buffer ++ chunk
  match decodeJson b with
  | some j => ([], some j)
  | none => (b, none)

/-- Run a whole sequence of reads, collecting every decoded value. -/
def connRun (buffer : List Char) : List (List Char) → List Char × List Json
  | [] => (buffer, [])
  | chunk :: chunks =>
    match connStep buffer chunk with
    | (b', none) => connRun b' chunks
    | (b', some j) =>
      let p := connRun b' chunks
      (p.1, j :: p.2)

/-- `send_event` (lines 91-95): connects, then evaluates
`event.deserialize().encode("utf-8")`.  `Event.deserialize` is a classmethod
with one required positional parameter `json_str`; the call passes none, so
Python raises `TypeError` before any byte is written, and the socket is not
closed.  The model returns the error, or (never) the bytes written. -/
def send_event (_ : Event) : Except String (List Char) :=
  Except.error ("TypeError: deserialize() missing 1 required positional argument: json_str")

/-- What §4.4 of the specification prescribes for the sender: write exactly
the UTF-8 encoding of the event's serialization. -/
def send_event_spec (e : Event) : Except String (List Char) :=
  Except.ok (Event.serialize e).data

/-! ### `app.py`: exit-code handling and the run session -/

/-- `pytest.ExitCode` values (an `IntEnum` from pytest). -/
def ExitCode.OK : Int := 0
def ExitCode.TESTS_FAILED : Int := 1
def ExitCode.INTERRUPTED : Int := 2
def ExitCode.INTERNAL_ERROR : Int := 3
def ExitCode.USAGE_ERROR : Int := 4
def ExitCode.NO_TESTS_COLLECTED : Int := 5

/-- What `handle_process_result` does with a return code: which of its three
helpers it calls, if any.  `completed` is `handle_test_result`, which fetches
the report and reports PASSED exactly for `ExitCode.OK`; `errored` is
`handle_error`; `cancelled` is `handle_cancelled_run`; `unhandled` means the
method falls through all branches and does nothing. -/
inductive SessionOutcome where
  | completed (passed : Bool)
  | errored
  | cancelled
  | unhandled
deriving DecidableEq

/-- `OrisaApp.handle_process_result` (app.py lines 302-316). -/
def handle_process_result (returncode : Int) : SessionOutcome :=
  if returncode = ExitCode.USAGE_ERROR ∨ returncode = ExitCode.NO_TESTS_COLLECTED then
    .errored
  else if returncode = -15 then
    .cancelled
  else if returncode = ExitCode.OK ∨ returncode = ExitCode.TESTS_FAILED then
    .completed (returncode = ExitCode.OK)
  else
    .unhandled

/-- The fixed cancellation banner `run_node` writes via `write_lines`. -/
def cancelBanner : List String :=
  [⟨List.replicate 80 '-' ++ ['\n']⟩,
   "Run cancelled \n",
   "The test execution was interrupted.\n",
   ⟨List.replicate 80 '-'⟩]

/-- Input of one run session, as `OrisaApp.run_node` observes it:
the stdout lines of the spawned process; the stderr lines the process emits
before, and after, the cancellation flag is first observed (all of stderr is
in the pipe when it is drained); the iteration index from which
`run_worker.is_cancelled` reads true, if ever; and the exit code of an
uncancelled process. -/
structure RunInput where
  stdoutLines : List String
  stderrBefore : List String
  stderrAfter : List String
  cancelFrom : Option Nat
  exitCode : Int

/-- Whether the streaming loop observes the cancellation flag: the flag must
turn true before the loop runs out of stdout lines. -/
def observesCancel (inp : RunInput) : Bool :=
  match inp.cancelFrom with
  | some c => c < inp.stdoutLines.length
  | none => false

/-- Result of one run session: the run log contents, the process return
code, and whether a `Report` fetch from the dispatcher was attempted. -/
structure RunResultState where
  log : List String
  returncode : Int
  reportFetched : Bool
deriving DecidableEq

/-- `OrisaApp.run_node` (app.py lines 259-300) followed by
`handle_process_result`: stream stdout line by line, checking the
cancellation flag before each line; on observation terminate the process
(return code -15), append the banner, and read no further stdout; after
`process.wait()`, drain stderr into the log whenever the return code is
nonzero; finally a `Report` fetch happens exactly when
`handle_test_result` runs (return code 0 or 1). -/
def run_session (inp : RunInput) : RunResultState :=
  let stderrAll := inp.stderrBefore ++ inp.stderrAfter
  match inp.cancelFrom, observesCancel inp with
  | some c, true =>
    let log1 := inp.stdoutLines.take c ++ cancelBanner
    let rc : Int := -15
    let log2 := log1 ++ (if rc ≠ ExitCode.OK then stderrAll else [])
    { log := log2, returncode := rc,
      reportFetched := match handle_process_result rc with
        | .completed _ => true
        | _ => false }
  | _, _ =>
    let log1 := inp.stdoutLines
    let rc := inp.exitCode
    let log2 := log1 ++ (if rc ≠ ExitCode.OK then stderrAll else [])
    { log := log2, returncode := rc,
      reportFetched := match handle_process_result rc with
        | .completed _ => true
        | _ => false }

/-! ### `plugin.py`: `run_node` -/

/-- `NodeType` string values (domain.py; `node["type"]` holds these). -/
def NodeType.DIR : String := "DIR"
def NodeType.MODULE : String := "MODULE"
def NodeType.CLASS : String := "CLASS"
def NodeType.FUNCTION : String := "FUNCTION"

/-- The selected node dict as `run_node` reads it. -/
structure RunNodeDict where
  name : String
  path : String
  type : String
  parent_type : Option String
  parent_name : Option String
deriving DecidableEq

/-- Python `f"{x}"` of an optional string (`None` prints as `"None"`). -/
def fmtOpt (o : Option String) : String := o.getD "None"

/-- The invocation target computed by `run_node` (plugin.py lines 273-278). -/
def resolve_target (node : RunNodeDict) : String :=
  if node.type = NodeType.FUNCTION ∧ node.parent_type = some NodeType.CLASS then
    node.path ++ "::" ++ fmtOpt node.parent_name ++ "::" ++ node.name
  else if node.type = NodeType.CLASS ∨ node.type = NodeType.FUNCTION then
    node.path ++ "::" ++ node.name
  else
    node.path

/-- `run_node` (plugin.py lines 269-290): with a node, build
`[path, "--enable-orisa"]` and append each active flag in order, then spawn
`["pytest", *args]`; with `None`, the local `args` is never assigned and the
`Popen` line raises `UnboundLocalError`.  The model returns the spawned
argument list, or the error. -/
def run_node (node : Option RunNodeDict) (pytest_cli_flags : List (String × Bool)) :
    Except String (List String) :=
  match node with
  | some nd =>
    let args :=
      pytest_cli_flags.foldl
        (fun a fl => if fl.2 then a ++ [fl.1] else a)
        [resolve_target nd, "--enable-orisa"]
    Except.ok ("pytest" :: args)
  | none =>
    Except.error ("UnboundLocalError: local variable referenced before assignment")

set_option maxRecDepth 40000

def printArrSep : List Json → List Char
  | [] => []
  | y :: ys => [',', ' '] ++ printJson y ++ printArrSep ys

def printObjSep : List (String × Json) → List Char
  | [] => []
  | (k, v) :: kvs =>
    [',', ' '] ++ ('"' :: k.data ++ ['"', ':', ' ']) ++ printJson v ++ printObjSep kvs

mutual
/-- Fuel that lets `parseValue` re-read a printed value. -/
def needV : Json → Nat
  | .str _ => 1
  | .null => 1
  | .bool _ => 1
  | .num _ => 1
  | .arr [] => 2
  | .arr (x :: xs) => 2 + max (needV x) (needT xs)
  | .obj [] => 2
  | .obj (m :: kvs) => 2 + max (1 + needV m.2) (needOT kvs)
/-- Fuel for `parseArrTail` on the printed tail of a nonempty array. -/
def needT : List Json → Nat
  | [] => 1
  | x :: xs => 1 + max (needV x) (needT xs)
/-- Fuel for `parseObjTail` on the printed tail of a nonempty object. -/
def needOT : List (String × Json) → Nat
  | [] => 1
  | m :: kvs => 1 + max (1 + needV m.2) (needOT kvs)
end
/-- A remainder that cannot extend a digit run. -/
def noDigitHead : List Char → Prop
  | [] => True
  | c :: _ => c.isDigit = false

/-- The remainder constraint of the round-trip lemma: a printed integer must
not be followed directly by another digit; other values end unambiguously. -/
def numGuard : Json → List Char → Prop
  | .num _, rest => noDigitHead rest
  | _, _ => True


/-- `data: dict | list` — the payload type annotation of `Event`. -/
def Json.isContainer : Json → Bool
  | .arr _ => true
  | .obj _ => true
  | _ => false


structure NodeInfo where
  name : String
  path : String
  kind : String
  lineno : Nat
  nodeid : String
deriving DecidableEq

/-- The node dict built by `create_node_data` (plugin.py lines 151-165);
`children` makes it recursive. -/
inductive TreeNode where
  | mk (name path type : String) (parent_type parent_name : Option String)
       (lineno : Nat) (nodeid : String) (children : List TreeNode)

def TreeNode.name : TreeNode → String
  | .mk n _ _ _ _ _ _ _ => n
def TreeNode.path : TreeNode → String
  | .mk _ p _ _ _ _ _ _ => p
def TreeNode.type : TreeNode → String
  | .mk _ _ ty _ _ _ _ _ => ty
def TreeNode.parent_type : TreeNode → Option String
  | .mk _ _ _ pt _ _ _ _ => pt
def TreeNode.parent_name : TreeNode → Option String
  | .mk _ _ _ _ pn _ _ _ => pn
def TreeNode.lineno : TreeNode → Nat
  | .mk _ _ _ _ _ ln _ _ => ln
def TreeNode.nodeid : TreeNode → String
  | .mk _ _ _ _ _ _ id _ => id
def TreeNode.children : TreeNode → List TreeNode
  | .mk _ _ _ _ _ _ _ cs => cs

/-- Replace the `children` entry of the dict, keeping every other key. -/
def TreeNode.setChildren : TreeNode → List TreeNode → TreeNode
  | .mk n p ty pt pn ln id _, cs => .mk n p ty pt pn ln id cs

/-- `create_node_data(node, parent_type, parent_name)`. -/
def create_node_data (n : NodeInfo) (parent_type parent_name : Option String) : TreeNode :=
  .mk n.name n.path n.kind parent_type parent_name n.lineno n.nodeid []

/-- The sibling-merge step of `add_to_tree` (plugin.py lines 182-190): find
the first existing child with the next element's name and recurse into it in
place, or append the freshly materialized node and recurse into that. -/
def mergeChild (nm : String) (nd : TreeNode) (f : TreeNode → TreeNode) :
    List TreeNode → List TreeNode
  | [] => [f nd]
  | c :: cs => if c.name = nm then f c :: cs else c :: mergeChild nm nd f cs

/-- `add_to_tree` (plugin.py lines 167-190), with the destructive
`nodes.pop(0)` recursion rendered functionally: consume the chain one
element at a time, descending by exact name match among the current
children. -/
def add_to_tree : List NodeInfo → TreeNode → Option String → Option String → TreeNode
  | [], t, _, _ => t
  | n :: rest, t, pt, pn =>
    t.setChildren (mergeChild n.name (create_node_data n pt pn)
      (fun c => add_to_tree rest c (some n.kind) (some n.name)) t.children)

/-- The result dict of `build_pytest_tree`: `data` (root name → root node,
in insertion order) and `meta["total"]`. -/
structure PytestTree where
  data : List (String × TreeNode)
  total : Nat

/-- One iteration of the item loop in `build_pytest_tree` (lines 194-206):
materialize the root if its name is new, then merge the rest of the chain
into it. -/
def buildStep (acc : List (String × TreeNode)) (chain : List NodeInfo) :
    List (String × TreeNode) :=
  match chain with
  | [] => acc
  | root :: rest =>
    let acc' := if (assocGet acc root.name).isSome then acc
                else acc ++ [(root.name, create_node_data root none none)]
    assocModify acc' root.name (fun t => add_to_tree rest t (some root.kind) (some root.name))

/-- `build_pytest_tree(items)` (plugin.py lines 150-208). -/
def build_pytest_tree (items : List (List NodeInfo)) : PytestTree :=
  { data := items.foldl buildStep [], total := items.length }


/-- The `next(child for child in children if child name matches)` lookup. -/
def findByName (cs : List TreeNode) (nm : String) : Option TreeNode :=
  cs.find? (fun c => c.name == nm)

/-- Walk a name path inside a node's subtree (`[]` is the node itself). -/
def nodeAtSub : TreeNode → List String → Option TreeNode
  | t, [] => some t
  | t, x :: xs =>
    match findByName t.children x with
    | some c => nodeAtSub c xs
    | none => none

/-- Walk a nonempty name path from the root table. -/
def lookupPath (acc : List (String × TreeNode)) : List String → Option TreeNode
  | [] => none
  | r :: qs =>
    match assocGet acc r with
    | some t => nodeAtSub t qs
    | none => none

def namePath (chain : List NodeInfo) : List String := chain.map (fun n => n.name)

mutual
/-- How many nodes of the subtree carry this `nodeid`. -/
def countNode (id : String) : TreeNode → Nat
  | .mk _ _ _ _ _ _ nid cs => (if nid = id then 1 else 0) + countChildren id cs
def countChildren (id : String) : List TreeNode → Nat
  | [] => 0
  | c :: cs => countNode id c + countChildren id cs
end

/-- How many nodes of the whole tree carry this `nodeid`. -/
def countAll (acc : List (String × TreeNode)) (id : String) : Nat :=
  (acc.map (fun kv => countNode id kv.2)).sum

/-- The part of a chain that finds no existing node while descending: the
suffix from the first name with no matching child on. -/
def newSuffixL : List TreeNode → List NodeInfo → List NodeInfo
  | _, [] => []
  | cs, n :: rest =>
    match findByName cs n.name with
    | some c => newSuffixL c.children rest
    | none => n :: rest

/-- The same, from the root table. -/
def topNewSuffix : List (String × TreeNode) → List NodeInfo → List NodeInfo
  | _, [] => []
  | acc, root :: rest =>
    match assocGet acc root.name with
    | some t => newSuffixL t.children rest
    | none => root :: rest

/-- Occurrences of a `nodeid` among a chain's elements. -/
def countChain (ch : List NodeInfo) (id : String) : Nat :=
  (ch.filter (fun e => e.nodeid == id)).length

/-- Sibling names are distinct at this node and below. -/
inductive ChildNamesNodup : TreeNode → Prop where
  | intro (t : TreeNode) : (t.children.map TreeNode.name).Nodup →
      (∀ c ∈ t.children, ChildNamesNodup c) → ChildNamesNodup t

/-- A chain of tree nodes, each a child of the one before and carrying its
parent's kind and name in its denormalized `parent_type`/`parent_name`. -/
def Chained : List TreeNode → Prop
  | [] => True
  | [_] => True
  | a :: b :: rest =>
    b ∈ a.children ∧ b.parent_type = some a.type ∧ b.parent_name = some a.name ∧
      Chained (b :: rest)

/-- The element a name-path position denotes in a chain. -/
def chainElt (ch : List NodeInfo) (k : Nat) : Option NodeInfo := (ch.take k).getLast?

/-- The non-children fields of a node agree with a chain element. -/
def sameFields (w : TreeNode) (e : NodeInfo) : Prop :=
  w.name = e.name ∧ w.path = e.path ∧ w.type = e.kind ∧ w.lineno = e.lineno ∧
    w.nodeid = e.nodeid

/-- What `add_to_tree ch t a b` stores at position `q` along `ch` when the
node is newly materialized: the chain element itself, with the parent data
taken from the previous element (or from `a`, `b` at depth one). -/
def subPayload (ch : List NodeInfo) (a b : Option String) (q : List String)
    (w : TreeNode) : Prop :=
  (∃ e, chainElt ch q.length = some e ∧ sameFields w e) ∧
  (q.length = 1 → w.parent_type = a ∧ w.parent_name = b) ∧
  (2 ≤ q.length → ∃ pe, chainElt ch (q.length - 1) = some pe ∧
    w.parent_type = some pe.kind ∧ w.parent_name = some pe.name)

/-- Any two items that agree on a prefix of names agree on the whole prefix
(pytest chains: the name path determines the collector chain). -/
def Consistent (items : List (List NodeInfo)) : Prop :=
  ∀ c1 ∈ items, ∀ c2 ∈ items, ∀ k : Nat,
    namePath (c1.take k) = namePath (c2.take k) → c1.take k = c2.take k

/-- All fields except `children` agree. -/
def samePayload (w u : TreeNode) : Prop :=
  w.name = u.name ∧ w.path = u.path ∧ w.type = u.type ∧
  w.parent_type = u.parent_type ∧ w.parent_name = u.parent_name ∧
  w.lineno = u.lineno ∧ w.nodeid = u.nodeid

/-- The root-table invariant: distinct keys, each entry named by its key,
and no duplicated sibling names anywhere. -/
def TreeDataOk (acc : List (String × TreeNode)) : Prop :=
  (acc.map Prod.fst).Nodup ∧ ∀ kv ∈ acc, kv.2.name = kv.1 ∧ ChildNamesNodup kv.2

/-- Scenario A, first item: `("pkg/test_a.py", "TestX", "test_one")` as the
ancestor chain `item.listchain()[1:]`. -/
def scnItemOne : List NodeInfo :=
  [⟨"pkg", "pkg", "DIR", 0, "pkg"⟩,
   ⟨"test_a.py", "pkg/test_a.py", "MODULE", 0, "pkg/test_a.py"⟩,
   ⟨"TestX", "pkg/test_a.py", "CLASS", 1, "pkg/test_a.py::TestX"⟩,
   ⟨"test_one", "pkg/test_a.py", "FUNCTION", 2, "pkg/test_a.py::TestX::test_one"⟩]

/-- Scenario A, second item: `("pkg/test_a.py", "TestX", "test_two")`. -/
def scnItemTwo : List NodeInfo :=
  [⟨"pkg", "pkg", "DIR", 0, "pkg"⟩,
   ⟨"test_a.py", "pkg/test_a.py", "MODULE", 0, "pkg/test_a.py"⟩,
   ⟨"TestX", "pkg/test_a.py", "CLASS", 1, "pkg/test_a.py::TestX"⟩,
   ⟨"test_two", "pkg/test_a.py", "FUNCTION", 3, "pkg/test_a.py::TestX::test_two"⟩]

/-- The tree Scenario A must build: one root `pkg`, one module, one class,
two function children in input order. -/
def scnExpected : PytestTree :=
  { data := [("pkg", .mk "pkg" "pkg" "DIR" none none 0 "pkg"
      [.mk "test_a.py" "pkg/test_a.py" "MODULE" (some "DIR") (some "pkg") 0 "pkg/test_a.py"
        [.mk "TestX" "pkg/test_a.py" "CLASS" (some "MODULE") (some "test_a.py") 1
          "pkg/test_a.py::TestX"
          [.mk "test_one" "pkg/test_a.py" "FUNCTION" (some "CLASS") (some "TestX") 2
            "pkg/test_a.py::TestX::test_one" [],
           .mk "test_two" "pkg/test_a.py" "FUNCTION" (some "CLASS") (some "TestX") 3
            "pkg/test_a.py::TestX::test_two" []]]])],
    total := 2 }

/-- Walk a nonempty name path among a sibling list. -/
def nodeAtList : List TreeNode → List String → Option TreeNode
  | _, [] => none
  | cs, x :: xs =>
    match findByName cs x with
    | some c => nodeAtSub c xs
    | none => none

def Payload (S : List (List NodeInfo)) (q : List String) (w : TreeNode) : Prop :=
  ∃ cc ∈ S, q <+: namePath cc ∧ subPayload cc none none q w


/-! ## Lemmas about association lists -/

theorem assocGet_set_self {α : Type} (l : List (String × α)) (k : String) (v : α) :
    assocGet (assocSet l k v) k = some v := by
  induction l with
  | nil => simp [assocSet, assocGet]
  | cons e rest ih =>
    by_cases h : e.1 = k
    · simp [assocSet, h, assocGet]
    · simp [assocSet, h, assocGet, ih]

theorem assocGet_set_ne {α : Type} (l : List (String × α)) (k k' : String) (v : α)
    (h : k' ≠ k) : assocGet (assocSet l k v) k' = assocGet l k' := by
  have hkk : ¬ k = k' := fun hk => h hk.symm
  induction l with
  | nil => simp [assocSet, assocGet, hkk]
  | cons kv rest ih =>
    obtain ⟨ek, ev⟩ := kv
    by_cases he : ek = k
    · subst he
      simp [assocSet, assocGet, hkk]
    · simp [assocSet, assocGet, he, ih]

/-! ## C1: exit-code classification -/

theorem process_event_handlers_eq (s : DispatcherState) (ty : String) (d : Json) :
    (process_event s ty d).1.event_handlers = s.event_handlers := by
  by_cases h : (assocGet s.event_handlers ty).isSome <;>
    simp [process_event, h]

/-- Claim C1 counterexample: exit codes 2 (INTERRUPTED) and 3
(INTERNAL_ERROR) are not classified as errored — `handle_process_result`
falls through every branch and does nothing for them. -/
theorem handle_process_result_2_3_not_errored :
    handle_process_result ExitCode.INTERRUPTED ≠ SessionOutcome.errored ∧
    handle_process_result ExitCode.INTERNAL_ERROR ≠ SessionOutcome.errored := by
  constructor <;> decide

/-- Claim C1 (amended): `handle_process_result` is deterministic and maps
0 to Completed/passed, 1 to Completed/failed, 4 (USAGE_ERROR) and
5 (NO_TESTS_COLLECTED) to Errored, and the cancellation termination code
-15 to Cancelled; every other exit code — in particular 2 (INTERRUPTED)
and 3 (INTERNAL_ERROR) from the §4.5 table — matches no branch and leaves
the session state untouched. -/
theorem handle_process_result_classification :
    handle_process_result ExitCode.OK = SessionOutcome.completed true ∧
    handle_process_result ExitCode.TESTS_FAILED = SessionOutcome.completed false ∧
    handle_process_result ExitCode.USAGE_ERROR = SessionOutcome.errored ∧
    handle_process_result ExitCode.NO_TESTS_COLLECTED = SessionOutcome.errored ∧
    handle_process_result (-15) = SessionOutcome.cancelled ∧
    handle_process_result ExitCode.INTERRUPTED = SessionOutcome.unhandled ∧
    handle_process_result ExitCode.INTERNAL_ERROR = SessionOutcome.unhandled ∧
    (∀ rc : Int, rc ≠ 0 → rc ≠ 1 → rc ≠ 4 → rc ≠ 5 → rc ≠ -15 →
      handle_process_result rc = SessionOutcome.unhandled) := by
  refine ⟨by decide, by decide, by decide, by decide, by decide, by decide, by decide, ?_⟩
  intro rc h0 h1 h4 h5 h15
  simp [handle_process_result, ExitCode.OK, ExitCode.TESTS_FAILED, ExitCode.USAGE_ERROR,
    ExitCode.NO_TESTS_COLLECTED, h0, h1, h4, h5, h15]

/-- Witness for the quantified clause of the amended C1 theorem, at the
concrete unhandled exit code 7. -/
theorem handle_process_result_classification_witness :
    handle_process_result 7 = SessionOutcome.unhandled :=
  handle_process_result_classification.2.2.2.2.2.2.2 7
    (by decide) (by decide) (by decide) (by decide) (by decide)

/-! ## C2: the dispatch invariant -/

/-- Claim C2: for every successfully decoded message, a registered handler
is invoked exactly once with the decoded payload and the state (in
particular the last-value store) is untouched; with no registered handler
there is no invocation and `get_event_data` returns the payload; for any
following message sequence the stored entry of a handled type never changes,
while for an unhandled type it always holds the most recent payload. -/
theorem dispatch_exactly_once_or_retained :
    (∀ (s : DispatcherState) (ty : String) (d : Json) (h : Nat),
      assocGet s.event_handlers ty = some h →
      process_event s ty d = (s, [(h, d)])) ∧
    (∀ (s : DispatcherState) (ty : String) (d : Json),
      assocGet s.event_handlers ty = none →
      (process_event s ty d).2 = [] ∧
      get_event_data (process_event s ty d).1 ty = some d) ∧
    (∀ (s : DispatcherState) (ty : String) (msgs : List (String × Json)),
      (assocGet s.event_handlers ty).isSome →
      get_event_data (process_events s msgs) ty = get_event_data s ty) ∧
    (∀ (s : DispatcherState) (ty : String) (ds : List Json) (d : Json),
      assocGet s.event_handlers ty = none →
      ds.getLast? = some d →
      get_event_data (process_events s (ds.map (fun x => (ty, x)))) ty = some d) := by
  have hreg : ∀ (s : DispatcherState) (ty : String) (d : Json) (h : Nat),
      assocGet s.event_handlers ty = some h → process_event s ty d = (s, [(h, d)]) := by
    intro s ty d h hh
    simp [process_event, hh]
  have hun : ∀ (s : DispatcherState) (ty : String) (d : Json),
      assocGet s.event_handlers ty = none →
      (process_event s ty d).2 = [] ∧
      get_event_data (process_event s ty d).1 ty = some d := by
    intro s ty d hn
    simp [process_event, hn, get_event_data, assocGet_set_self]
  refine ⟨hreg, hun, ?_, ?_⟩
  · intro s ty msgs
    induction msgs generalizing s with
    | nil => intro _; rfl
    | cons m rest ih =>
      intro hs
      have hstep : get_event_data (process_event s m.1 m.2).1 ty = get_event_data s ty := by
        by_cases hm : (assocGet s.event_handlers m.1).isSome
        · simp [process_event, hm]
        · by_cases hty : m.1 = ty
          · subst hty
            exact absurd hs hm
          · have hm' : assocGet s.event_handlers m.1 = none :=
              Option.not_isSome_iff_eq_none.mp hm
            simp [process_event, hm', get_event_data]
            exact assocGet_set_ne _ _ _ _ (fun he => hty he.symm)
      have hh : (assocGet (process_event s m.1 m.2).1.event_handlers ty).isSome := by
        rw [process_event_handlers_eq]; exact hs
      simpa [process_events, hstep] using ih _ hh
  · intro s ty ds
    induction ds generalizing s with
    | nil => intro d _ h; simp at h
    | cons x rest ih =>
      intro d hn hlast
      have hx := hun s ty x hn
      have hh : assocGet (process_event s ty x).1.event_handlers ty = none := by
        rw [process_event_handlers_eq]; exact hn
      cases rest with
      | nil =>
        simp only [List.getLast?_singleton, Option.some.injEq] at hlast
        subst hlast
        simpa [process_events] using hx.2
      | cons y ys =>
        have hlast' : (y :: ys).getLast? = some d := by
          simpa [List.getLast?_cons_cons] using hlast
        simpa [process_events] using ih _ d hh hlast'

/-- Witness for C2 at a concrete state and message sequence: type `"T"` has
handler 7 registered, type `"U"` has none; a `"U"` message is retained and
the latest of two `"U"` payloads wins, while a `"T"` message is delivered
once and retains nothing. -/
theorem dispatch_exactly_once_or_retained_witness :
    process_event ⟨[("T", 7)], []⟩ "T" (.bool true) = (⟨[("T", 7)], []⟩, [(7, .bool true)]) ∧
    get_event_data (process_event ⟨[("T", 7)], []⟩ "U" .null).1 "U" = some .null ∧
    get_event_data (process_events ⟨[("T", 7)], []⟩ [("T", .bool false)]) "T" =
      get_event_data ⟨[("T", 7)], []⟩ "T" ∧
    get_event_data
      (process_events ⟨[("T", 7)], []⟩ ([Json.null, Json.bool true].map (fun x => ("U", x))))
      "U" = some (.bool true) :=
  ⟨dispatch_exactly_once_or_retained.1 ⟨[("T", 7)], []⟩ "T" (.bool true) 7 rfl,
   (dispatch_exactly_once_or_retained.2.1 ⟨[("T", 7)], []⟩ "U" .null rfl).2,
   dispatch_exactly_once_or_retained.2.2.1 ⟨[("T", 7)], []⟩ "T" [("T", .bool false)] rfl,
   dispatch_exactly_once_or_retained.2.2.2 ⟨[("T", 7)], []⟩ "U" [Json.null, Json.bool true]
     (.bool true) rfl rfl⟩

/-! ## C5: the sender -/

/-- Claim C5 (code bug): `send_event` never writes the encoded event.  The
call `event.deserialize()` invokes the one-argument classmethod
`Event.deserialize` with no argument, so every call raises `TypeError`
instead of sending `e.serialize().encode("utf-8")` as §4.4 prescribes. -/
theorem send_event_raises_type_error :
    send_event ⟨.REPORT, .obj []⟩ =
      Except.error ("TypeError: deserialize() missing 1 required positional argument: json_str") ∧
    (∀ e : Event, send_event e ≠ send_event_spec e) := by
  constructor
  · rfl
  · intro e
    simp [send_event, send_event_spec]

/-! ## C9 and C10: `run_node` -/

theorem foldl_active_flags (flags : List (String × Bool)) :
    ∀ acc : List String,
      flags.foldl (fun a fl => if fl.2 then a ++ [fl.1] else a) acc =
        acc ++ (flags.filter (fun fl => fl.2)).map (fun fl => fl.1) := by
  induction flags with
  | nil => intro acc; simp
  | cons fl rest ih =>
    intro acc
    by_cases h : fl.2 <;> simp [h, ih]

/-- Claim C9: with a selected node, `run_node` spawns
`pytest target --enable-orisa flags…` where the target is
`path::parentName::name` for a Function inside a Class, `path::name` for a
Class or for a Function with no Class parent, and the bare `path`
otherwise; the appended flags are exactly the active ones, in order. -/
theorem run_node_target_and_flags :
    (∀ (nd : RunNodeDict) (flags : List (String × Bool)),
      run_node (some nd) flags =
        Except.ok ("pytest" :: resolve_target nd :: "--enable-orisa" ::
          (flags.filter (fun fl => fl.2)).map (fun fl => fl.1))) ∧
    (∀ nd : RunNodeDict,
      (nd.type = NodeType.FUNCTION ∧ nd.parent_type = some NodeType.CLASS →
        resolve_target nd = nd.path ++ "::" ++ fmtOpt nd.parent_name ++ "::" ++ nd.name) ∧
      (¬ (nd.type = NodeType.FUNCTION ∧ nd.parent_type = some NodeType.CLASS) →
        (nd.type = NodeType.CLASS ∨ nd.type = NodeType.FUNCTION) →
        resolve_target nd = nd.path ++ "::" ++ nd.name) ∧
      (¬ (nd.type = NodeType.CLASS ∨ nd.type = NodeType.FUNCTION) →
        resolve_target nd = nd.path)) := by
  constructor
  · intro nd flags
    simp [run_node, foldl_active_flags]
  · intro nd
    refine ⟨?_, ?_, ?_⟩
    · intro h
      simp [resolve_target, h]
    · intro h1 h2
      rw [resolve_target, if_neg h1, if_pos h2]
    · intro h
      have h1 : ¬ (nd.type = NodeType.FUNCTION ∧ nd.parent_type = some NodeType.CLASS) := by
        intro hc
        exact h (Or.inr hc.1)
      rw [resolve_target, if_neg h1, if_neg h]

/-- Witness for C9 at a concrete Function-in-Class node with one active and
one inactive flag. -/
theorem run_node_target_and_flags_witness :
    run_node (some ⟨"test_one", "pkg/test_a.py", "FUNCTION", some "CLASS", some "TestX"⟩)
        [("-v", true), ("-x", false)] =
      Except.ok ["pytest", "pkg/test_a.py::TestX::test_one", "--enable-orisa", "-v"] ∧
    resolve_target ⟨"test_one", "pkg/test_a.py", "FUNCTION", some "CLASS", some "TestX"⟩ =
      "pkg/test_a.py::TestX::test_one" := by
  constructor
  · rw [run_node_target_and_flags.1 _ [("-v", true), ("-x", false)]]
    rfl
  · rw [(run_node_target_and_flags.2 _).1 ⟨rfl, rfl⟩]
    rfl

/-- Claim C10: `run_node` with `node = None` never reaches the spawn — the
local `args` is unassigned and `UnboundLocalError` is raised — while for
every non-null node the spawn is reached and yields an argument list. -/
theorem run_node_none_unbound_local :
    (∀ flags, run_node none flags =
      Except.error ("UnboundLocalError: local variable referenced before assignment")) ∧
    (∀ (node : Option RunNodeDict) (flags : List (String × Bool)),
      node ≠ none → ∃ args, run_node node flags = Except.ok args) := by
  constructor
  · intro flags; rfl
  · intro node flags hne
    match node with
    | some nd => exact ⟨_, rfl⟩
    | none => exact absurd rfl hne

/-- Witness for C10: the non-null precondition discharged at a concrete
Module node. -/
theorem run_node_none_unbound_local_witness :
    ∃ args, run_node (some ⟨"test_a.py", "pkg/test_a.py", "MODULE", some "DIR", some "pkg"⟩)
      [] = Except.ok args :=
  run_node_none_unbound_local.2
    (some ⟨"test_a.py", "pkg/test_a.py", "MODULE", some "DIR", some "pkg"⟩) [] (by simp)

/-! ## C8: cancellation in the streaming loop -/

/-- Claim C8 counterexample: cancellation is observed before the second
stdout line, yet a stderr line the process emits after that observation is
still appended to the run log — `run_node` drains standard error whenever
the return code is nonzero, and the termination code -15 always is.  So it
is not true that no output line emitted after the observation is appended. -/
theorem run_session_appends_post_cancel_stderr :
    (run_session ⟨["a\n", "b\n"], [], ["late\n"], some 1, 0⟩).log =
      ["a\n"] ++ cancelBanner ++ ["late\n"] ∧
    "late\n" ∈ (run_session ⟨["a\n", "b\n"], [], ["late\n"], some 1, 0⟩).log := by
  constructor
  · rfl
  · decide

/-- Claim C8 (amended): once the cancellation flag is observed by the
streaming loop at iteration `c`, no standard-output line from index `c` on
is appended, exactly one cancellation banner is appended, and no `Report`
fetch is attempted; the drained standard error (which can include lines
emitted after the observation) follows the banner, since the termination
return code -15 is nonzero. -/
theorem run_session_cancellation (inp : RunInput) (c : Nat)
    (hc : inp.cancelFrom = some c) (hlt : c < inp.stdoutLines.length) :
    (run_session inp).log =
      inp.stdoutLines.take c ++ cancelBanner ++ (inp.stderrBefore ++ inp.stderrAfter) ∧
    (run_session inp).returncode = -15 ∧
    (run_session inp).reportFetched = false := by
  have hobs : observesCancel inp = true := by
    simp [observesCancel, hc, hlt]
  have hne : (-15 : Int) ≠ ExitCode.OK := by decide
  refine ⟨?_, ?_, ?_⟩ <;>
    simp [run_session, hc, hobs, hne, handle_process_result, ExitCode.USAGE_ERROR,
      ExitCode.NO_TESTS_COLLECTED, ExitCode.OK, List.append_assoc]

/-- Witness for the amended C8 theorem: one line streamed, then cancellation
observed; the log is that line, the banner, then the drained stderr, and no
report fetch happens. -/
theorem run_session_cancellation_witness :
    (run_session ⟨["l1\n", "l2\n", "l3\n"], ["e1\n"], [], some 1, 0⟩).log =
      ["l1\n"] ++ cancelBanner ++ (["e1\n"] ++ []) ∧
    (run_session ⟨["l1\n", "l2\n", "l3\n"], ["e1\n"], [], some 1, 0⟩).returncode = -15 ∧
    (run_session ⟨["l1\n", "l2\n", "l3\n"], ["e1\n"], [], some 1, 0⟩).reportFetched = false :=
  run_session_cancellation ⟨["l1\n", "l2\n", "l3\n"], ["e1\n"], [], some 1, 0⟩ 1
    rfl (by decide)

/-! ## The codec round trip (groundwork for C3 and C4)

`printArrSep`/`printObjSep` are the printed forms of the elements that
follow the first one — what `parseArrTail`/`parseObjTail` consume. -/

theorem printArr_cons (xs : List Json) : ∀ x : Json,
    printArr (x :: xs) = printJson x ++ printArrSep xs := by
  induction xs with
  | nil => intro x; simp [printArr, printArrSep]
  | cons y ys ih =>
    intro x
    simp [printArr, printArrSep, ih y]

theorem printObj_cons (kvs : List (String × Json)) : ∀ (k : String) (v : Json),
    printObj ((k, v) :: kvs) =
      '"' :: k.data ++ ['"', ':', ' '] ++ printJson v ++ printObjSep kvs := by
  induction kvs with
  | nil => intro k v; simp [printObj, printObjSep]
  | cons m ms ih =>
    intro k v
    obtain ⟨mk, mv⟩ := m
    simp [printObj, printObjSep, ih mk mv]

/-! #### Digit runs -/

theorem digitChar_isDigit (d : Nat) : (digitChar d).isDigit = true := by
  unfold digitChar
  split <;> decide

theorem digitVal_digitChar (d : Nat) (h : d < 10) : digitVal (digitChar d) = d := by
  interval_cases d <;> decide

theorem natChars_acc (n : Nat) : ∀ acc : List Char,
    natChars n acc = natChars n [] ++ acc := by
  induction n using Nat.strongRecOn with
  | ind n ih =>
    intro acc
    rw [natChars.eq_def n acc, natChars.eq_def n []]
    by_cases h : n < 10
    · simp [h]
    · simp only [dif_neg h]
      rw [ih (n / 10) (Nat.div_lt_self (by omega) (by omega)),
        ih (n / 10) (Nat.div_lt_self (by omega) (by omega)) [digitChar (n % 10)]]
      simp

theorem natChars_step (n : Nat) :
    natChars n [] =
      (if n < 10 then [] else natChars (n / 10) []) ++ [digitChar (if n < 10 then n else n % 10)] := by
  rw [natChars.eq_def]
  by_cases h : n < 10
  · simp [h]
  · simp only [dif_neg h, if_neg h]
    exact natChars_acc (n / 10) [digitChar (n % 10)]

theorem natChars_ne_nil (n : Nat) : natChars n [] ≠ [] := by
  rw [natChars_step]
  simp

theorem natChars_digits (n : Nat) : ∀ c ∈ natChars n [], c.isDigit = true := by
  induction n using Nat.strongRecOn with
  | ind n ih =>
    rw [natChars_step]
    intro c hc
    rw [List.mem_append] at hc
    rcases hc with hc | hc
    · by_cases h : n < 10
      · simp [h] at hc
      · rw [if_neg h] at hc
        exact ih (n / 10) (Nat.div_lt_self (by omega) (by omega)) c hc
    · rw [List.mem_singleton] at hc
      subst hc
      exact digitChar_isDigit _

theorem digitsVal_natChars (n : Nat) : digitsVal (natChars n []) = n := by
  induction n using Nat.strongRecOn with
  | ind n ih =>
    rw [natChars_step]
    by_cases h : n < 10
    · simp [h, digitsVal, digitVal_digitChar n h]
    · rw [if_neg h, if_neg h]
      unfold digitsVal
      rw [List.foldl_append]
      have hv := ih (n / 10) (Nat.div_lt_self (by omega) (by omega))
      unfold digitsVal at hv
      rw [hv, List.foldl_cons, List.foldl_nil,
        digitVal_digitChar (n % 10) (Nat.mod_lt _ (by omega))]
      omega

theorem spanDigits_stop (cs : List Char) (h : noDigitHead cs) :
    spanDigits cs = ([], cs) := by
  cases cs with
  | nil => rfl
  | cons c t => simp [spanDigits, noDigitHead] at h ⊢; simp [h]

theorem spanDigits_run (ds : List Char) (rest : List Char)
    (hds : ∀ c ∈ ds, c.isDigit = true) (hrest : noDigitHead rest) :
    spanDigits (ds ++ rest) = (ds, rest) := by
  induction ds with
  | nil => simpa using spanDigits_stop rest hrest
  | cons c t ih =>
    have hc : c.isDigit = true := hds c (by simp)
    have ht := ih (fun x hx => hds x (by simp [hx]))
    simp [spanDigits, hc, ht]

theorem parseNat_natChars (n : Nat) (rest : List Char) (hrest : noDigitHead rest) :
    parseNat (natChars n [] ++ rest) = some (n, rest) := by
  rw [parseNat, spanDigits_run _ _ (natChars_digits n) hrest]
  have hne := natChars_ne_nil n
  match hmatch : natChars n [] with
  | [] => exact absurd hmatch hne
  | d :: ds =>
    rw [← hmatch]
    simp [digitsVal_natChars]

/-! #### String bodies -/

theorem wfStr_chars {s : String} (h : wfStr s = true) :
    ∀ c ∈ s.data, c ≠ '"' ∧ c ≠ '\\' ∧ 32 ≤ c.toNat ∧ c.toNat ≤ 126 := by
  intro c hc
  have := (List.all_eq_true.mp h) c hc
  simp only [Bool.and_eq_true, decide_eq_true_eq] at this
  exact ⟨this.1.2, this.2, this.1.1.1, this.1.1.2⟩

theorem takeWhile_app {α : Type} (p : α → Bool) (l r : List α)
    (hl : ∀ c ∈ l, p c = true) (hr : ∀ c t, r = c :: t → p c = false) :
    (l ++ r).takeWhile p = l := by
  induction l with
  | nil =>
    cases r with
    | nil => rfl
    | cons c t => simp [List.takeWhile, hr c t rfl]
  | cons c l ih =>
    have hc := hl c (by simp)
    simp [List.takeWhile, hc, ih (fun x hx => hl x (by simp [hx]))]

theorem dropWhile_app {α : Type} (p : α → Bool) (l r : List α)
    (hl : ∀ c ∈ l, p c = true) (hr : ∀ c t, r = c :: t → p c = false) :
    (l ++ r).dropWhile p = r := by
  induction l with
  | nil =>
    cases r with
    | nil => rfl
    | cons c t => simp [List.dropWhile, hr c t rfl]
  | cons c l ih =>
    have hc := hl c (by simp)
    simp [List.dropWhile, hc, ih (fun x hx => hl x (by simp [hx]))]

theorem parseStrBody_print (s : String) (rest : List Char) (h : wfStr s = true) :
    parseStrBody (s.data ++ '"' :: rest) = some (s, rest) := by
  have hall : ∀ c ∈ s.data, (fun c => decide (c ≠ '"')) c = true := by
    intro c hc
    simpa using (wfStr_chars h c hc).1
  have hhead : ∀ (c : Char) (t : List Char), '"' :: rest = c :: t →
      (fun c => decide (c ≠ '"')) c = false := by
    intro c t he
    cases he
    simp
  rw [parseStrBody, dropWhile_app _ _ _ hall hhead, takeWhile_app _ _ _ hall hhead]

/-! #### Head characters and guards -/

theorem dropWs_cons_not_ws {c : Char} (h : isWsChar c = false) (cs : List Char) :
    dropWs (c :: cs) = c :: cs := by
  simp [dropWs, List.dropWhile, h]

theorem dropWs_cons_ws {c : Char} (h : isWsChar c = true) (cs : List Char) :
    dropWs (c :: cs) = dropWs cs := by
  simp [dropWs, List.dropWhile, h]

theorem isDigit_ne (c : Char) (h : c.isDigit = true) :
    c ≠ 'n' ∧ c ≠ 't' ∧ c ≠ 'f' ∧ c ≠ '"' ∧ c ≠ '[' ∧ c ≠ '{' ∧ c ≠ '-' ∧
    c ≠ ']' ∧ c ≠ '}' ∧ c ≠ ',' ∧ isWsChar c = false := by
  have hsp : c ≠ ' ' := by rintro rfl; exact absurd h (by decide)
  have hta : c ≠ '\t' := by rintro rfl; exact absurd h (by decide)
  have hnl : c ≠ '\n' := by rintro rfl; exact absurd h (by decide)
  have hcr : c ≠ '\r' := by rintro rfl; exact absurd h (by decide)
  refine ⟨?_, ?_, ?_, ?_, ?_, ?_, ?_, ?_, ?_, ?_, ?_⟩
  · rintro rfl; exact absurd h (by decide)
  · rintro rfl; exact absurd h (by decide)
  · rintro rfl; exact absurd h (by decide)
  · rintro rfl; exact absurd h (by decide)
  · rintro rfl; exact absurd h (by decide)
  · rintro rfl; exact absurd h (by decide)
  · rintro rfl; exact absurd h (by decide)
  · rintro rfl; exact absurd h (by decide)
  · rintro rfl; exact absurd h (by decide)
  · rintro rfl; exact absurd h (by decide)
  · simp [isWsChar, hsp, hta, hnl, hcr]

/-- Every printed value starts with a non-whitespace character other than
`]` (and other than `}` and `,`). -/
theorem printJson_head (j : Json) :
    ∃ c t, printJson j = c :: t ∧ isWsChar c = false ∧ c ≠ ']' := by
  cases j with
  | null => exact ⟨'n', _, rfl, by decide, by decide⟩
  | bool b => cases b with
    | true => exact ⟨'t', _, rfl, by decide, by decide⟩
    | false => exact ⟨'f', _, rfl, by decide, by decide⟩
  | str s => exact ⟨'"', _, rfl, by decide, by decide⟩
  | arr xs => exact ⟨'[', _, rfl, by decide, by decide⟩
  | obj kvs => exact ⟨'{', _, rfl, by decide, by decide⟩
  | num n =>
    by_cases hn : n < 0
    · refine ⟨'-', natChars n.natAbs [], ?_, by decide, by decide⟩
      simp [printJson, intChars, hn]
    · match hm : natChars n.natAbs [] with
      | [] => exact absurd hm (natChars_ne_nil _)
      | c :: t =>
        have hc : c.isDigit = true := natChars_digits n.natAbs c (hm ▸ List.mem_cons_self c t)
        obtain ⟨_, _, _, _, _, _, _, hbr, _, _, hws⟩ := isDigit_ne c hc
        refine ⟨c, t, ?_, hws, hbr⟩
        simp [printJson, intChars, hn, hm]

theorem printJson_length_pos (j : Json) : 1 ≤ (printJson j).length := by
  obtain ⟨c, t, hp, _, _⟩ := printJson_head j
  simp [hp]

/-- The characters that can follow a printed array element or object member
(the separator of the next one, or the closing bracket) are never digits, so
a printed integer is never extended by what follows it. -/
theorem noDigitHead_arrSep (xs : List Json) (rest : List Char) :
    noDigitHead (printArrSep xs ++ ']' :: rest) := by
  cases xs with
  | nil => simp [printArrSep, noDigitHead]
  | cons y ys => simp [printArrSep, noDigitHead]

theorem noDigitHead_objSep (kvs : List (String × Json)) (rest : List Char) :
    noDigitHead (printObjSep kvs ++ '}' :: rest) := by
  cases kvs with
  | nil => simp [printObjSep, noDigitHead]
  | cons m ms =>
    obtain ⟨mk, mv⟩ := m
    simp [printObjSep, noDigitHead]

theorem numGuard_of (j : Json) (rest : List Char) (h : noDigitHead rest) :
    numGuard j rest := by
  cases j <;> first | exact trivial | exact h

/-! #### The fuel bound: `needV j` never exceeds the printed length plus one -/

mutual
theorem needV_le : ∀ j : Json, needV j ≤ (printJson j).length
  | .null => by simp [needV, printJson]
  | .bool b => by cases b <;> simp [needV, printJson]
  | .num n => by simp [needV]; exact printJson_length_pos (.num n)
  | .str s => by simp [needV, printJson]
  | .arr [] => by simp [needV, printJson, printArr]
  | .arr (x :: xs) => by
    have hx := needV_le x
    have ht := needT_le xs
    have hp := printJson_length_pos x
    have hmax : max (needV x) (needT xs) ≤
        (printJson x).length + (printArrSep xs).length + 1 :=
      max_le (by omega) (by omega)
    simp only [needV, printJson, printArr_cons, List.length_cons, List.length_append,
      List.length_nil]
    omega
  | .obj [] => by simp [needV, printJson, printObj]
  | .obj ((k, v) :: kvs) => by
    have hv := needV_le v
    have ht := needOT_le kvs
    have hmax : max (1 + needV v) (needOT kvs) ≤
        (printJson v).length + (printObjSep kvs).length + 1 :=
      max_le (by omega) (by omega)
    simp only [needV, printJson, printObj_cons, List.length_cons, List.length_append,
      List.length_nil]
    omega
theorem needT_le : ∀ xs : List Json, needT xs ≤ (printArrSep xs).length + 1
  | [] => by simp [needT, printArrSep]
  | x :: xs => by
    have hx := needV_le x
    have ht := needT_le xs
    have hmax : max (needV x) (needT xs) ≤
        (printJson x).length + (printArrSep xs).length + 1 :=
      max_le (by omega) (by omega)
    simp only [needT, printArrSep, List.length_cons, List.length_append, List.length_nil]
    omega
theorem needOT_le : ∀ kvs : List (String × Json), needOT kvs ≤ (printObjSep kvs).length + 1
  | [] => by simp [needOT, printObjSep]
  | (k, v) :: kvs => by
    have hv := needV_le v
    have ht := needOT_le kvs
    have hmax : max (1 + needV v) (needOT kvs) ≤
        (printJson v).length + (printObjSep kvs).length + 1 :=
      max_le (by omega) (by omega)
    simp only [needOT, printObjSep, List.length_cons, List.length_append, List.length_nil]
    omega
end

/-! #### The round trip: parsing a printed value consumes exactly it -/

theorem parseValue_digit (f : Nat) (c : Char) (r : List Char) (hc : c.isDigit = true) :
    parseValue (f + 1) (c :: r) =
      (match parseNat (c :: r) with
       | some (m, r') => some (.num (m : Int), r')
       | none => none) := by
  obtain ⟨h1, h2, h3, h4, h5, h6, h7, _, _, _, _⟩ := isDigit_ne c hc
  simp only [parseValue]
  simp [h1, h2, h3, h4, h5, h6, h7, hc]

/-- Parsing a printed member after its opening quote, given that the value
part parses back (supplied as a hypothesis so that this stays outside the
mutual recursion). -/
theorem parseMember_print (k : String) (g : Nat) (v : Json) (tail : List Char)
    (hk : wfStr k = true)
    (hv : parseValue g (printJson v ++ tail) = some (v, tail)) :
    parseMember (g + 1) (k.data ++ ('"' :: ':' :: ' ' :: (printJson v ++ tail))) =
      some (k, v, tail) := by
  obtain ⟨c, t, hpr, hws, _⟩ := printJson_head v
  simp only [parseMember]
  rw [parseStrBody_print k _ hk]
  simp [dropWs_cons_not_ws (by decide : isWsChar ':' = false),
    dropWs_cons_ws (by decide : isWsChar ' ' = true),
    show dropWs (printJson v ++ tail) = printJson v ++ tail from by
      rw [hpr, List.cons_append]; exact dropWs_cons_not_ws hws _,
    hv]

mutual
theorem parsePrintV : ∀ (j : Json) (f : Nat) (rest : List Char),
    wfJson j = true → numGuard j rest → needV j ≤ f →
    parseValue f (printJson j ++ rest) = some (j, rest)
  | .null, f, rest, _, _, hf => by
    have h1 : 1 ≤ f := by simpa [needV] using hf
    obtain ⟨f', rfl⟩ : ∃ f', f = f' + 1 := ⟨f - 1, by omega⟩
    simp [printJson, parseValue]
  | .bool b, f, rest, _, _, hf => by
    have h1 : 1 ≤ f := by simpa [needV] using hf
    obtain ⟨f', rfl⟩ : ∃ f', f = f' + 1 := ⟨f - 1, by omega⟩
    cases b <;> simp [printJson, parseValue]
  | .num n, f, rest, _, hg, hf => by
    have h1 : 1 ≤ f := by simpa [needV] using hf
    obtain ⟨f', rfl⟩ : ∃ f', f = f' + 1 := ⟨f - 1, by omega⟩
    have hnd : noDigitHead rest := hg
    by_cases hn : n < 0
    · have harg : printJson (.num n) ++ rest = '-' :: (natChars n.natAbs [] ++ rest) := by
        simp [printJson, intChars, hn]
      rw [harg]
      simp only [parseValue]
      rw [parseNat_natChars _ _ hnd]
      have habs : -((n.natAbs : Int)) = n := by omega
      show some (Json.num (-((n.natAbs : Int))), rest) = some (Json.num n, rest)
      rw [habs]
    · match hm : natChars n.natAbs [] with
      | [] => exact absurd hm (natChars_ne_nil _)
      | c :: t =>
        have hc : c.isDigit = true := natChars_digits _ c (hm ▸ List.mem_cons_self c t)
        have harg : printJson (.num n) ++ rest = c :: (t ++ rest) := by
          simp [printJson, intChars, hn, hm]
        have hpn : parseNat (c :: (t ++ rest)) = some (n.natAbs, rest) := by
          have hq := parseNat_natChars n.natAbs rest hnd
          rwa [hm, List.cons_append] at hq
        rw [harg, parseValue_digit f' c (t ++ rest) hc, hpn]
        have habs : ((n.natAbs : Int)) = n := by omega
        show some (Json.num ((n.natAbs : Int)), rest) = some (Json.num n, rest)
        rw [habs]
  | .str s, f, rest, hwf, _, hf => by
    have h1 : 1 ≤ f := by simpa [needV] using hf
    obtain ⟨f', rfl⟩ : ∃ f', f = f' + 1 := ⟨f - 1, by omega⟩
    have hs : wfStr s = true := by simpa [wfJson] using hwf
    have harg : printJson (.str s) ++ rest = '"' :: (s.data ++ '"' :: rest) := by
      simp [printJson]
    rw [harg]
    simp only [parseValue]
    rw [parseStrBody_print s rest hs]
  | .arr [], f, rest, _, _, hf => by
    have h2 : 2 ≤ f := by simpa [needV] using hf
    obtain ⟨f', rfl⟩ : ∃ f', f = f' + 2 := ⟨f - 2, by omega⟩
    have harg : printJson (.arr []) ++ rest = '[' :: ']' :: rest := by
      simp [printJson, printArr]
    rw [harg]
    simp only [parseValue, parseArrBody]
    rw [dropWs_cons_not_ws (by decide : isWsChar ']' = false)]
    rfl
  | .arr (x :: xs), f, rest, hwf, _, hf => by
    have hwx : wfJson x = true ∧ wfArr xs = true := by
      simpa [wfJson, wfArr, Bool.and_eq_true] using hwf
    have hl := Nat.le_max_left (needV x) (needT xs)
    have hr := Nat.le_max_right (needV x) (needT xs)
    have hneed : 2 + max (needV x) (needT xs) ≤ f := by simpa [needV] using hf
    obtain ⟨f', rfl⟩ : ∃ f', f = f' + 2 := ⟨f - 2, by omega⟩
    obtain ⟨c, t, hpr, hws, hbr⟩ := printJson_head x
    have harg : printJson (.arr (x :: xs)) ++ rest =
        '[' :: (printJson x ++ (printArrSep xs ++ ']' :: rest)) := by
      simp [printJson, printArr_cons]
    have hx := parsePrintV x f' (printArrSep xs ++ ']' :: rest) hwx.1
      (numGuard_of _ _ (noDigitHead_arrSep xs rest)) (by omega)
    have ht := parsePrintT xs f' rest hwx.2 (by omega)
    rw [harg]
    simp only [parseValue, parseArrBody]
    rw [show dropWs (printJson x ++ (printArrSep xs ++ ']' :: rest)) =
        printJson x ++ (printArrSep xs ++ ']' :: rest) from by
      rw [hpr, List.cons_append]; exact dropWs_cons_not_ws hws _]
    rw [hpr, List.cons_append] at hx ⊢
    simp [hbr, hx, ht]
  | .obj [], f, rest, _, _, hf => by
    have h2 : 2 ≤ f := by simpa [needV] using hf
    obtain ⟨f', rfl⟩ : ∃ f', f = f' + 2 := ⟨f - 2, by omega⟩
    have harg : printJson (.obj []) ++ rest = '{' :: '}' :: rest := by
      simp [printJson, printObj]
    rw [harg]
    simp only [parseValue, parseObjBody]
    rw [dropWs_cons_not_ws (by decide : isWsChar '}' = false)]
    rfl
  | .obj ((k, v) :: kvs), f, rest, hwf, _, hf => by
    have hwx : wfStr k = true ∧ wfJson v = true ∧ wfObj kvs = true := by
      simpa [wfJson, wfObj, Bool.and_eq_true, and_assoc] using hwf
    have hl := Nat.le_max_left (1 + needV v) (needOT kvs)
    have hr := Nat.le_max_right (1 + needV v) (needOT kvs)
    have hneed : 2 + max (1 + needV v) (needOT kvs) ≤ f := by simpa [needV] using hf
    obtain ⟨g, rfl⟩ : ∃ g, f = g + 3 := ⟨f - 3, by omega⟩
    have harg : printJson (.obj ((k, v) :: kvs)) ++ rest =
        '{' :: '"' :: (k.data ++ ('"' :: ':' :: ' ' ::
          (printJson v ++ (printObjSep kvs ++ '}' :: rest)))) := by
      simp [printJson, printObj_cons]
    have hv := parsePrintV v g (printObjSep kvs ++ '}' :: rest) hwx.2.1
      (numGuard_of _ _ (noDigitHead_objSep kvs rest)) (by omega)
    have hm := parseMember_print k g v (printObjSep kvs ++ '}' :: rest) hwx.1 hv
    have ht := parsePrintOT kvs (g + 1) rest hwx.2.2 (by omega)
    rw [harg]
    simp only [parseValue, parseObjBody]
    rw [dropWs_cons_not_ws (by decide : isWsChar '"' = false)]
    simp [hm, ht]
  termination_by j _ _ _ _ _ => sizeOf j
theorem parsePrintT : ∀ (xs : List Json) (f : Nat) (rest : List Char),
    wfArr xs = true → needT xs ≤ f →
    parseArrTail f (printArrSep xs ++ ']' :: rest) = some (xs, rest)
  | [], f, rest, _, hf => by
    have h1 : 1 ≤ f := by simpa [needT] using hf
    obtain ⟨f', rfl⟩ : ∃ f', f = f' + 1 := ⟨f - 1, by omega⟩
    simp only [printArrSep, List.nil_append, parseArrTail]
    rw [dropWs_cons_not_ws (by decide : isWsChar ']' = false)]
    rfl
  | x :: xs, f, rest, hwf, hf => by
    have hwx : wfJson x = true ∧ wfArr xs = true := by
      simpa [wfArr, Bool.and_eq_true] using hwf
    have hl := Nat.le_max_left (needV x) (needT xs)
    have hr := Nat.le_max_right (needV x) (needT xs)
    have hneed : 1 + max (needV x) (needT xs) ≤ f := by simpa [needT] using hf
    obtain ⟨f', rfl⟩ : ∃ f', f = f' + 1 := ⟨f - 1, by omega⟩
    obtain ⟨c, t, hpr, hws, hbr⟩ := printJson_head x
    have harg : printArrSep (x :: xs) ++ ']' :: rest =
        ',' :: ' ' :: (printJson x ++ (printArrSep xs ++ ']' :: rest)) := by
      simp [printArrSep]
    have hx := parsePrintV x f' (printArrSep xs ++ ']' :: rest) hwx.1
      (numGuard_of _ _ (noDigitHead_arrSep xs rest)) (by omega)
    have ht := parsePrintT xs f' rest hwx.2 (by omega)
    rw [harg]
    simp only [parseArrTail]
    simp [dropWs_cons_not_ws (by decide : isWsChar ',' = false),
      dropWs_cons_ws (by decide : isWsChar ' ' = true),
      show dropWs (printJson x ++ (printArrSep xs ++ ']' :: rest)) =
          printJson x ++ (printArrSep xs ++ ']' :: rest) from by
        rw [hpr, List.cons_append]; exact dropWs_cons_not_ws hws _,
      hx, ht]
  termination_by xs _ _ _ _ => sizeOf xs
theorem parsePrintOT : ∀ (kvs : List (String × Json)) (f : Nat) (rest : List Char),
    wfObj kvs = true → needOT kvs ≤ f →
    parseObjTail f (printObjSep kvs ++ '}' :: rest) = some (kvs, rest)
  | [], f, rest, _, hf => by
    have h1 : 1 ≤ f := by simpa [needOT] using hf
    obtain ⟨f', rfl⟩ : ∃ f', f = f' + 1 := ⟨f - 1, by omega⟩
    simp only [printObjSep, List.nil_append, parseObjTail]
    rw [dropWs_cons_not_ws (by decide : isWsChar '}' = false)]
    rfl
  | (k, v) :: kvs, f, rest, hwf, hf => by
    have hwx : wfStr k = true ∧ wfJson v = true ∧ wfObj kvs = true := by
      simpa [wfObj, Bool.and_eq_true, and_assoc] using hwf
    have hl := Nat.le_max_left (1 + needV v) (needOT kvs)
    have hr := Nat.le_max_right (1 + needV v) (needOT kvs)
    have hneed : 1 + max (1 + needV v) (needOT kvs) ≤ f := by simpa [needOT] using hf
    obtain ⟨f', rfl⟩ : ∃ f', f = f' + 1 := ⟨f - 1, by omega⟩
    obtain ⟨g, hg'⟩ : ∃ g, f' = g + 1 := ⟨f' - 1, by omega⟩
    have harg : printObjSep ((k, v) :: kvs) ++ '}' :: rest =
        ',' :: ' ' :: '"' :: (k.data ++ ('"' :: ':' :: ' ' ::
          (printJson v ++ (printObjSep kvs ++ '}' :: rest)))) := by
      simp [printObjSep]
    have hv := parsePrintV v g (printObjSep kvs ++ '}' :: rest) hwx.2.1
      (numGuard_of _ _ (noDigitHead_objSep kvs rest)) (by omega)
    have hm0 := parseMember_print k g v (printObjSep kvs ++ '}' :: rest) hwx.1 hv
    rw [← hg'] at hm0
    have ht := parsePrintOT kvs f' rest hwx.2.2 (by omega)
    rw [harg]
    simp only [parseObjTail]
    simp [dropWs_cons_not_ws (by decide : isWsChar ',' = false),
      dropWs_cons_ws (by decide : isWsChar ' ' = true),
      dropWs_cons_not_ws (by decide : isWsChar '"' = false),
      hm0, ht]
  termination_by kvs _ _ _ _ => sizeOf kvs
end
theorem decodeJson_print (j : Json) (hwf : wfJson j = true) :
    decodeJson (printJson j) = some j := by
  obtain ⟨c, t, hpr, hws, _⟩ := printJson_head j
  have hfuel : needV j ≤ jsonFuel (printJson j) := by
    have hb := needV_le j
    simp only [jsonFuel]
    omega
  have hp := parsePrintV j (jsonFuel (printJson j)) [] hwf (numGuard_of _ _ trivial) hfuel
  rw [List.append_nil] at hp
  unfold decodeJson
  rw [show dropWs (printJson j) = printJson j from by
    rw [hpr]; exact dropWs_cons_not_ws hws _]
  rw [hp]
  simp [dropWs]

/-- `json.loads` of one printed value followed by any nonempty
non-whitespace remainder fails: the whole buffer is not one value. -/
theorem decodeJson_with_extra (j : Json) (hwf : wfJson j = true)
    (c2 : Char) (t2 : List Char) (hws2 : isWsChar c2 = false)
    (hg : numGuard j (c2 :: t2)) :
    decodeJson (printJson j ++ c2 :: t2) = none := by
  obtain ⟨c, t, hpr, hws, _⟩ := printJson_head j
  have hfuel : needV j ≤ jsonFuel (printJson j ++ c2 :: t2) := by
    have hb := needV_le j
    simp only [jsonFuel, List.length_append]
    omega
  have hp := parsePrintV j (jsonFuel (printJson j ++ c2 :: t2)) (c2 :: t2) hwf hg hfuel
  unfold decodeJson
  rw [show dropWs (printJson j ++ c2 :: t2) = printJson j ++ c2 :: t2 from by
    rw [hpr, List.cons_append]; exact dropWs_cons_not_ws hws _]
  simp [hp, dropWs_cons_not_ws hws2]

theorem wfJson_toJson (e : Event) (h : wfJson e.data = true) :
    wfJson e.toJson = true := by
  obtain ⟨ty, d⟩ := e
  cases ty <;> simp [Event.toJson, wfJson, wfObj, EventType.value, wfStr, h]

/-! ## C4: the event codec round trip -/

/-- Claim C4: for every constructible event — a recognized event type with a
JSON dict or list payload (well-formed in the embedding's string fragment) —
decoding the encoding returns the event itself:
`Event.deserialize(e.serialize()) == e`. -/
theorem event_deserialize_serialize (e : Event)
    (hwf : wfJson e.data = true) (hcont : e.data.isContainer = true) :
    Event.deserialize (Event.serialize e) = some e := by
  have hd : decodeJson (printJson e.toJson) = some e.toJson :=
    decodeJson_print _ (wfJson_toJson e hwf)
  unfold Event.deserialize
  rw [show (Event.serialize e).data = printJson e.toJson from rfl, hd]
  obtain ⟨ty, d⟩ := e
  cases ty <;> rfl

/-- Witness for C4 at the Scenario B outcome event. -/
theorem event_deserialize_serialize_witness :
    Event.deserialize (Event.serialize
      ⟨.TEST_OUTCOME, .obj [("nodeId", .str "pkg/test_a.py::TestX::test_one"),
        ("status", .str "passed")]⟩) =
      some ⟨.TEST_OUTCOME, .obj [("nodeId", .str "pkg/test_a.py::TestX::test_one"),
        ("status", .str "passed")]⟩ :=
  event_deserialize_serialize _ (by decide) (by decide)

/-! ## C3: the framing failure mode -/

/-- Two complete encoded messages (or that prefix plus anything) never
decode as one value. -/
theorem decodeJson_two_messages (e1 e2 : Event) (buffer : List Char)
    (h1 : wfJson e1.data = true) (_h2 : wfJson e2.data = true)
    (hpre : ((Event.serialize e1).data ++ (Event.serialize e2).data) <+: buffer) :
    decodeJson buffer = none := by
  obtain ⟨r, hr⟩ := hpre
  obtain ⟨c2, t2, hpr2, hws2, _⟩ := printJson_head e2.toJson
  have hb : buffer = printJson e1.toJson ++ (c2 :: (t2 ++ r)) := by
    rw [← hr]
    show (printJson e1.toJson ++ printJson e2.toJson) ++ r = _
    rw [hpr2]
    simp
  rw [hb]
  exact decodeJson_with_extra e1.toJson (wfJson_toJson e1 h1) c2 (t2 ++ r) hws2 trivial

/-- Claim C3: the connection handler decodes only the entire accumulated
buffer, takes no action on any decode failure (incomplete and malformed
alike), and once the buffer holds two complete encoded messages
back-to-back, no later sequence of reads ever yields a decoded message on
that connection. -/
theorem conn_two_messages_never_dispatch :
    (∀ buffer chunk, decodeJson (buffer ++ chunk) = none →
      connStep buffer chunk = (buffer ++ chunk, none)) ∧
    (∀ (e1 e2 : Event) (buffer : List Char) (chunks : List (List Char)),
      wfJson e1.data = true → wfJson e2.data = true →
      ((Event.serialize e1).data ++ (Event.serialize e2).data) <+: buffer →
      (connRun buffer chunks).2 = []) := by
  constructor
  · intro buffer chunk h
    simp [connStep, h]
  · intro e1 e2 buffer chunks h1 h2 hpre
    induction chunks generalizing buffer with
    | nil => rfl
    | cons chunk rest ih =>
      have hpre' : ((Event.serialize e1).data ++ (Event.serialize e2).data) <+:
          buffer ++ chunk := hpre.trans (List.prefix_append buffer chunk)
      have hnone : decodeJson (buffer ++ chunk) = none :=
        decodeJson_two_messages e1 e2 _ h1 h2 hpre'
      simp only [connRun, connStep, hnone]
      exact ih (buffer ++ chunk) hpre'

/-- Witness for C3: a buffer holding exactly two encoded events, followed by
two further reads, dispatches nothing. -/
theorem conn_two_messages_never_dispatch_witness :
    (connRun ((Event.serialize ⟨.REPORT, .obj []⟩).data ++
        (Event.serialize ⟨.TESTS_SCHEDULED, .arr []⟩).data)
      [['x'], [' ']]).2 = [] :=
  conn_two_messages_never_dispatch.2 ⟨.REPORT, .obj []⟩ ⟨.TESTS_SCHEDULED, .arr []⟩
    _ [['x'], [' ']] (by decide) (by decide) (List.prefix_refl _)

/-! ## `plugin.py`: the test-tree builder

One chain element as `create_node_data` reads it off a pytest collector:
`name`, `str(path)`, `type(node).__name__.upper()`, the declaration line
(`reportinfo()[1]` for classes, `location[1]` for functions, else 0), and
`nodeid`.  An item is its ancestor chain `item.listchain()[1:]`, root
first. -/
/-! ### Observation functions over the built tree -/
theorem setChildren_children (t : TreeNode) (cs : List TreeNode) :
    (t.setChildren cs).children = cs := by
  cases t
  rfl

theorem add_to_tree_fields (ch : List NodeInfo) (t : TreeNode) (a b : Option String) :
    samePayload (add_to_tree ch t a b) t := by
  cases ch with
  | nil => exact ⟨rfl, rfl, rfl, rfl, rfl, rfl, rfl⟩
  | cons n rest =>
    cases t
    exact ⟨rfl, rfl, rfl, rfl, rfl, rfl, rfl⟩

theorem add_to_tree_name (ch : List NodeInfo) (t : TreeNode) (a b : Option String) :
    (add_to_tree ch t a b).name = t.name :=
  (add_to_tree_fields ch t a b).1

theorem findByName_cons (c : TreeNode) (cs : List TreeNode) (nm : String) :
    findByName (c :: cs) nm = if c.name = nm then some c else findByName cs nm := by
  by_cases h : c.name = nm
  · simp [findByName, List.find?_cons_of_pos, h]
  · rw [if_neg h]
    unfold findByName
    rw [List.find?_cons_of_neg]
    simpa using h

theorem findByName_none (cs : List TreeNode) (nm : String) :
    findByName cs nm = none ↔ ∀ x ∈ cs, x.name ≠ nm := by
  unfold findByName
  rw [List.find?_eq_none]
  simp

theorem findByName_mem {cs : List TreeNode} {nm : String} {c : TreeNode}
    (h : findByName cs nm = some c) : c ∈ cs ∧ c.name = nm := by
  refine ⟨List.mem_of_find?_eq_some h, ?_⟩
  have hp := List.find?_some h
  simpa using hp

theorem findByName_split (l1 l2 : List TreeNode) (w : TreeNode) (nm : String)
    (hl1 : ∀ x ∈ l1, x.name ≠ nm) (hw : w.name = nm) :
    findByName (l1 ++ w :: l2) nm = some w := by
  induction l1 with
  | nil => simp [findByName_cons, hw]
  | cons x l1 ih =>
    rw [List.cons_append, findByName_cons, if_neg (hl1 x (by simp))]
    exact ih (fun y hy => hl1 y (by simp [hy]))

theorem mergeChild_find_ne (nm nm' : String) (hne : nm' ≠ nm) (nd : TreeNode)
    (f : TreeNode → TreeNode) (hf : ∀ x, (f x).name = x.name) (hnd : nd.name = nm)
    (cs : List TreeNode) :
    findByName (mergeChild nm nd f cs) nm' = findByName cs nm' := by
  have hne' : ¬ nm = nm' := fun h => hne h.symm
  induction cs with
  | nil => simp [mergeChild, findByName_cons, hf, hnd, hne', findByName]
  | cons c cs ih =>
    by_cases hc : c.name = nm
    · simp [mergeChild, hc, findByName_cons, hf, hne']
    · simp [mergeChild, hc, findByName_cons, ih]

theorem mergeChild_found {cs : List TreeNode} {nm : String} {c : TreeNode}
    (nd : TreeNode) (f : TreeNode → TreeNode) (h : findByName cs nm = some c) :
    ∃ l1 l2, cs = l1 ++ c :: l2 ∧ (∀ x ∈ l1, x.name ≠ nm) ∧
      mergeChild nm nd f cs = l1 ++ f c :: l2 := by
  induction cs with
  | nil => simp [findByName] at h
  | cons c0 cs ih =>
    by_cases hc : c0.name = nm
    · rw [findByName_cons, if_pos hc, Option.some.injEq] at h
      subst h
      exact ⟨[], cs, rfl, by simp, by simp [mergeChild, hc]⟩
    · rw [findByName_cons, if_neg hc] at h
      obtain ⟨l1, l2, hcs, hl1, hm⟩ := ih h
      exact ⟨c0 :: l1, l2, by simp [hcs], by simpa [hc] using hl1,
        by simp [mergeChild, hc, hm]⟩

theorem mergeChild_not_found {cs : List TreeNode} {nm : String}
    (nd : TreeNode) (f : TreeNode → TreeNode) (h : findByName cs nm = none) :
    mergeChild nm nd f cs = cs ++ [f nd] := by
  induction cs with
  | nil => rfl
  | cons c0 cs ih =>
    rw [findByName_cons] at h
    by_cases hc : c0.name = nm
    · simp [hc] at h
    · rw [if_neg hc] at h
      simp [mergeChild, hc, ih h]

theorem nodeAtSub_create (n : NodeInfo) (a b : Option String) (x : String)
    (xs : List String) :
    nodeAtSub (create_node_data n a b) (x :: xs) = none := by
  simp [nodeAtSub, create_node_data, TreeNode.children, findByName]

theorem namePath_cons (n : NodeInfo) (rest : List NodeInfo) :
    namePath (n :: rest) = n.name :: namePath rest := rfl

theorem nodeAtSub_cons (t : TreeNode) (x : String) (xs : List String) :
    nodeAtSub t (x :: xs) =
      (match findByName t.children x with
       | some c => nodeAtSub c xs
       | none => none) := rfl

theorem chainElt_one (n : NodeInfo) (rest : List NodeInfo) :
    chainElt (n :: rest) 1 = some n := by
  simp [chainElt]

theorem chainElt_cons (n : NodeInfo) (rest : List NodeInfo) (k : Nat)
    (h1 : 1 ≤ k) (h2 : k ≤ rest.length) :
    chainElt (n :: rest) (k + 1) = chainElt rest k := by
  obtain ⟨k', rfl⟩ : ∃ k', k = k' + 1 := ⟨k - 1, by omega⟩
  cases rest with
  | nil => simp at h2
  | cons r0 rs =>
    simp [chainElt, List.take_succ_cons, List.getLast?_cons_cons]

theorem subPayload_lift (n : NodeInfo) (rest : List NodeInfo) (a b : Option String)
    (xs : List String) (w : TreeNode) (hxs : xs ≠ []) (hlen : xs.length ≤ rest.length)
    (h : subPayload rest (some n.kind) (some n.name) xs w) :
    subPayload (n :: rest) a b (n.name :: xs) w := by
  obtain ⟨⟨e, he, hfe⟩, hone, htwo⟩ := h
  have hx1 : 1 ≤ xs.length := by
    cases xs with
    | nil => exact absurd rfl hxs
    | cons _ _ => simp
  refine ⟨⟨e, ?_, hfe⟩, ?_, ?_⟩
  · rw [List.length_cons, chainElt_cons n rest xs.length hx1 hlen]
    exact he
  · intro hcon
    rw [List.length_cons] at hcon
    omega
  · intro _
    by_cases hx2 : xs.length = 1
    · refine ⟨n, ?_, ?_, ?_⟩
      · rw [List.length_cons, hx2]
        exact chainElt_one n rest
      · exact (hone hx2).1
      · exact (hone hx2).2
    · have h2le : 2 ≤ xs.length := by omega
      obtain ⟨pe, hpe, hpt, hpn⟩ := htwo h2le
      refine ⟨pe, ?_, hpt, hpn⟩
      rw [List.length_cons, show xs.length + 1 - 1 = (xs.length - 1) + 1 from by omega,
        chainElt_cons n rest (xs.length - 1) (by omega) (by omega)]
      exact hpe

theorem mergeAdd_find_found {t : TreeNode} {n : NodeInfo} {c : TreeNode}
    (a b : Option String) (rest : List NodeInfo)
    (hfind : findByName t.children n.name = some c) :
    findByName (mergeChild n.name (create_node_data n a b)
      (fun c => add_to_tree rest c (some n.kind) (some n.name)) t.children) n.name =
      some (add_to_tree rest c (some n.kind) (some n.name)) := by
  obtain ⟨l1, l2, hcs, hl1, hm⟩ := mergeChild_found (create_node_data n a b)
    (fun c => add_to_tree rest c (some n.kind) (some n.name)) hfind
  rw [hm]
  exact findByName_split l1 l2 _ _ hl1
    (by rw [add_to_tree_name]; exact (findByName_mem hfind).2)

theorem mergeAdd_find_none {t : TreeNode} {n : NodeInfo}
    (a b : Option String) (rest : List NodeInfo)
    (hfind : findByName t.children n.name = none) :
    findByName (mergeChild n.name (create_node_data n a b)
      (fun c => add_to_tree rest c (some n.kind) (some n.name)) t.children) n.name =
      some (add_to_tree rest (create_node_data n a b) (some n.kind) (some n.name)) := by
  rw [mergeChild_not_found _ _ hfind]
  exact findByName_split t.children [] _ _ ((findByName_none _ _).mp hfind)
    (by rw [add_to_tree_name]; rfl)

/-- Positions off the merged chain's name path are untouched. -/
theorem add_lookup_off (ch : List NodeInfo) (t : TreeNode) (a b : Option String)
    (q : List String) (hq : q ≠ []) (hnp : ¬ q <+: namePath ch) :
    nodeAtSub (add_to_tree ch t a b) q = nodeAtSub t q := by
  induction ch generalizing t a b q with
  | nil => simp [add_to_tree]
  | cons n rest ih =>
    obtain ⟨x, xs, rfl⟩ : ∃ x xs, q = x :: xs := by
      cases q with
      | nil => exact absurd rfl hq
      | cons x xs => exact ⟨x, xs, rfl⟩
    by_cases hx : x = n.name
    · subst hx
      have hxs_pre : ¬ xs <+: namePath rest := by
        intro hcon
        exact hnp (by rw [namePath_cons]; exact List.cons_prefix_cons.mpr ⟨rfl, hcon⟩)
      have hxs_ne : xs ≠ [] := by
        rintro rfl
        exact hxs_pre (List.nil_prefix)
      cases hfind : findByName t.children n.name with
      | some c =>
        simp only [add_to_tree, nodeAtSub_cons, setChildren_children,
          mergeAdd_find_found a b rest hfind, hfind]
        exact ih c (some n.kind) (some n.name) xs hxs_ne hxs_pre
      | none =>
        simp only [add_to_tree, nodeAtSub_cons, setChildren_children,
          mergeAdd_find_none a b rest hfind, hfind]
        rw [ih (create_node_data n a b) (some n.kind) (some n.name) xs hxs_ne hxs_pre]
        obtain ⟨x', xs', rfl⟩ : ∃ x' xs', xs = x' :: xs' := by
          cases xs with
          | nil => exact absurd rfl hxs_ne
          | cons x' xs' => exact ⟨x', xs', rfl⟩
        exact nodeAtSub_create n a b x' xs'
    · have hne := mergeChild_find_ne n.name x hx (create_node_data n a b)
        (fun c => add_to_tree rest c (some n.kind) (some n.name))
        (fun c => add_to_tree_name rest c _ _) rfl t.children
      simp only [add_to_tree, nodeAtSub_cons, setChildren_children, hne]

/-- A position that already holds a node keeps its payload. -/
theorem add_lookup_old (ch : List NodeInfo) (t : TreeNode) (a b : Option String)
    (q : List String) (u : TreeNode) (hp : q <+: namePath ch) (hq : q ≠ [])
    (hu : nodeAtSub t q = some u) :
    ∃ w, nodeAtSub (add_to_tree ch t a b) q = some w ∧ samePayload w u := by
  induction ch generalizing t a b q u with
  | nil =>
    have : q = [] := List.prefix_nil.mp hp
    exact absurd this hq
  | cons n rest ih =>
    obtain ⟨x, xs, rfl⟩ : ∃ x xs, q = x :: xs := by
      cases q with
      | nil => exact absurd rfl hq
      | cons x xs => exact ⟨x, xs, rfl⟩
    rw [namePath_cons] at hp
    obtain ⟨hx, hxs⟩ := List.cons_prefix_cons.mp hp
    subst hx
    cases hfind : findByName t.children n.name with
    | none =>
      rw [nodeAtSub_cons, hfind] at hu
      exact absurd hu (by simp)
    | some c =>
      rw [nodeAtSub_cons, hfind] at hu
      cases xs with
      | nil =>
        obtain rfl : c = u := by simpa [nodeAtSub] using hu
        refine ⟨add_to_tree rest c (some n.kind) (some n.name), ?_, ?_⟩
        · simp only [add_to_tree, nodeAtSub_cons, setChildren_children,
            mergeAdd_find_found a b rest hfind]
          rfl
        · exact add_to_tree_fields rest c _ _
      | cons x' xs' =>
        obtain ⟨w, hw, hsp⟩ := ih c (some n.kind) (some n.name) (x' :: xs') u hxs
          (by simp) hu
        refine ⟨w, ?_, hsp⟩
        simp only [add_to_tree, nodeAtSub_cons, setChildren_children,
          mergeAdd_find_found a b rest hfind]
        exact hw

/-- A position on the chain's name path that held no node now holds the
chain element, with the denormalized parent data of its predecessor. -/
theorem add_lookup_new (ch : List NodeInfo) (t : TreeNode) (a b : Option String)
    (q : List String) (hp : q <+: namePath ch) (hq : q ≠ [])
    (hu : nodeAtSub t q = none) :
    ∃ w, nodeAtSub (add_to_tree ch t a b) q = some w ∧ subPayload ch a b q w := by
  induction ch generalizing t a b q with
  | nil =>
    have : q = [] := List.prefix_nil.mp hp
    exact absurd this hq
  | cons n rest ih =>
    obtain ⟨x, xs, rfl⟩ : ∃ x xs, q = x :: xs := by
      cases q with
      | nil => exact absurd rfl hq
      | cons x xs => exact ⟨x, xs, rfl⟩
    rw [namePath_cons] at hp
    obtain ⟨hx, hxs⟩ := List.cons_prefix_cons.mp hp
    subst hx
    have hlen : xs.length ≤ rest.length := by
      have hle := hxs.length_le
      simpa [namePath] using hle
    cases hfind : findByName t.children n.name with
    | some c =>
      rw [nodeAtSub_cons, hfind] at hu
      cases xs with
      | nil => simp [nodeAtSub] at hu
      | cons x' xs' =>
        obtain ⟨w, hw, hsp⟩ := ih c (some n.kind) (some n.name) (x' :: xs') hxs
          (by simp) hu
        refine ⟨w, ?_, subPayload_lift n rest a b (x' :: xs') w (by simp) hlen hsp⟩
        simp only [add_to_tree, nodeAtSub_cons, setChildren_children,
          mergeAdd_find_found a b rest hfind]
        exact hw
    | none =>
      cases xs with
      | nil =>
        refine ⟨add_to_tree rest (create_node_data n a b) (some n.kind) (some n.name),
          ?_, ?_⟩
        · simp only [add_to_tree, nodeAtSub_cons, setChildren_children,
            mergeAdd_find_none a b rest hfind]
          rfl
        · obtain ⟨h1, h2, h3, h4, h5, h6, h7⟩ :=
            add_to_tree_fields rest (create_node_data n a b) (some n.kind) (some n.name)
          refine ⟨⟨n, chainElt_one n rest, ?_, ?_, ?_, ?_, ?_⟩, ?_, ?_⟩
          · rw [h1]; rfl
          · rw [h2]; rfl
          · rw [h3]; rfl
          · rw [h6]; rfl
          · rw [h7]; rfl
          · intro _
            exact ⟨by rw [h4]; rfl, by rw [h5]; rfl⟩
          · intro hcon
            simp at hcon
      | cons x' xs' =>
        obtain ⟨w, hw, hsp⟩ := ih (create_node_data n a b) (some n.kind) (some n.name)
          (x' :: xs') hxs (by simp) (nodeAtSub_create n a b x' xs')
        refine ⟨w, ?_, subPayload_lift n rest a b (x' :: xs') w (by simp) hlen hsp⟩
        simp only [add_to_tree, nodeAtSub_cons, setChildren_children,
          mergeAdd_find_none a b rest hfind]
        exact hw

theorem create_nodup (n : NodeInfo) (a b : Option String) :
    ChildNamesNodup (create_node_data n a b) := by
  refine ChildNamesNodup.intro _ ?_ ?_ <;> simp [create_node_data, TreeNode.children]

/-- Merging a chain never creates two siblings with the same name. -/
theorem add_nodup (ch : List NodeInfo) (t : TreeNode) (a b : Option String)
    (h : ChildNamesNodup t) : ChildNamesNodup (add_to_tree ch t a b) := by
  induction ch generalizing t a b with
  | nil => simpa [add_to_tree] using h
  | cons n rest ih =>
    obtain ⟨_, hnd, hall⟩ := h
    have hch : (add_to_tree (n :: rest) t a b).children =
        mergeChild n.name (create_node_data n a b)
          (fun c => add_to_tree rest c (some n.kind) (some n.name)) t.children := by
      rw [show add_to_tree (n :: rest) t a b = t.setChildren (mergeChild n.name
        (create_node_data n a b)
        (fun c => add_to_tree rest c (some n.kind) (some n.name)) t.children) from rfl,
        setChildren_children]
    cases hfind : findByName t.children n.name with
    | some c =>
      obtain ⟨l1, l2, hcs, hl1, hm⟩ := mergeChild_found (create_node_data n a b)
        (fun c => add_to_tree rest c (some n.kind) (some n.name)) hfind
      refine ChildNamesNodup.intro _ ?_ ?_
      · rw [hch, hm]
        have hnames : ((l1 ++ add_to_tree rest c (some n.kind) (some n.name) :: l2).map
            TreeNode.name) = ((l1 ++ c :: l2).map TreeNode.name) := by
          simp [add_to_tree_name]
        rw [hnames, ← hcs]
        exact hnd
      · rw [hch, hm]
        intro x hx
        rcases List.mem_append.mp hx with hx1 | hx2
        · exact hall x (by rw [hcs]; exact List.mem_append.mpr (Or.inl hx1))
        · rcases List.mem_cons.mp hx2 with hx2 | hx3
          · subst hx2
            exact ih c _ _ (hall c (by rw [hcs]; simp))
          · exact hall x (by rw [hcs]; exact List.mem_append.mpr (Or.inr (by simp [hx3])))
    | none =>
      have hnin := (findByName_none _ _).mp hfind
      refine ChildNamesNodup.intro _ ?_ ?_
      · rw [hch, mergeChild_not_found _ _ hfind]
        simp only [List.map_append, List.map_cons, List.map_nil]
        rw [List.nodup_append]
        refine ⟨hnd, by simp, ?_⟩
        intro y hy hy2
        simp only [List.mem_singleton, add_to_tree_name] at hy2
        obtain ⟨x, hx, rfl⟩ := List.mem_map.mp hy
        exact hnin x hx (by rw [hy2]; rfl)
      · rw [hch, mergeChild_not_found _ _ hfind]
        intro x hx
        rcases List.mem_append.mp hx with hx1 | hx2
        · exact hall x hx1
        · rw [List.mem_singleton] at hx2
          subst hx2
          exact ih (create_node_data n a b) _ _ (create_nodup n a b)

theorem assocGet_none_iff {α : Type} (l : List (String × α)) (k : String) :
    assocGet l k = none ↔ ∀ kv ∈ l, kv.1 ≠ k := by
  induction l with
  | nil => simp [assocGet]
  | cons kv rest ih =>
    obtain ⟨k0, v0⟩ := kv
    by_cases h : k0 = k
    · simp [assocGet, h]
    · simp [assocGet, h, ih]

theorem assocModify_keys {α : Type} (l : List (String × α)) (k : String) (f : α → α) :
    (assocModify l k f).map Prod.fst = l.map Prod.fst := by
  induction l with
  | nil => rfl
  | cons kv rest ih =>
    obtain ⟨k0, v0⟩ := kv
    by_cases h : k0 = k <;> simp [assocModify, h, ih]

theorem assocModify_mem {α : Type} (l : List (String × α)) (k : String) (f : α → α) :
    ∀ kv' ∈ assocModify l k f,
      kv' ∈ l ∨ ∃ kv, kv ∈ l ∧ kv.1 = k ∧ kv' = (kv.1, f kv.2) := by
  induction l with
  | nil => simp [assocModify]
  | cons kv rest ih =>
    obtain ⟨k0, v0⟩ := kv
    intro kv' hkv'
    by_cases h : k0 = k
    · rw [assocModify, if_pos h] at hkv'
      rcases List.mem_cons.mp hkv' with h1 | h2
      · exact Or.inr ⟨(k0, v0), by simp, h, h1⟩
      · exact Or.inl (by simp [h2])
    · rw [assocModify, if_neg h] at hkv'
      rcases List.mem_cons.mp hkv' with h1 | h2
      · exact Or.inl (by simp [h1])
      · rcases ih kv' h2 with h3 | ⟨kv0, hm, hk, he⟩
        · exact Or.inl (by simp [h3])
        · exact Or.inr ⟨kv0, by simp [hm], hk, he⟩

theorem buildStep_ok (acc : List (String × TreeNode)) (chain : List NodeInfo)
    (h : TreeDataOk acc) : TreeDataOk (buildStep acc chain) := by
  obtain ⟨hkeys, hvals⟩ := h
  cases chain with
  | nil => exact ⟨hkeys, hvals⟩
  | cons root rest =>
    have hacc' : TreeDataOk (if (assocGet acc root.name).isSome then acc
        else acc ++ [(root.name, create_node_data root none none)]) := by
      by_cases hg : (assocGet acc root.name).isSome
      · simpa [hg] using ⟨hkeys, hvals⟩
      · rw [if_neg hg]
        have hnone : assocGet acc root.name = none :=
          Option.not_isSome_iff_eq_none.mp hg
        have hnin := (assocGet_none_iff acc root.name).mp hnone
        constructor
        · simp only [List.map_append, List.map_cons, List.map_nil]
          rw [List.nodup_append]
          refine ⟨hkeys, by simp, ?_⟩
          intro y hy
          simp only [List.mem_singleton]
          obtain ⟨kv, hkv, rfl⟩ := List.mem_map.mp hy
          intro hcon
          exact hnin kv hkv hcon
        · intro kv hkv
          rcases List.mem_append.mp hkv with h1 | h2
          · exact hvals kv h1
          · rw [List.mem_singleton] at h2
            subst h2
            exact ⟨rfl, create_nodup root none none⟩
    obtain ⟨hkeys', hvals'⟩ := hacc'
    refine ⟨?_, ?_⟩
    · rw [buildStep]
      simp only [assocModify_keys]
      exact hkeys'
    · rw [buildStep]
      intro kv hkv
      rcases assocModify_mem _ _ _ kv hkv with h1 | ⟨kv0, hm, hk, he⟩
      · exact hvals' kv h1
      · subst he
        obtain ⟨hname, hnd⟩ := hvals' kv0 hm
        exact ⟨by rw [add_to_tree_name]; exact hname, add_nodup _ _ _ _ hnd⟩

theorem build_data_ok (items : List (List NodeInfo)) :
    TreeDataOk (build_pytest_tree items).data := by
  have hgen : ∀ (pending : List (List NodeInfo)) (acc : List (String × TreeNode)),
      TreeDataOk acc → TreeDataOk (pending.foldl buildStep acc) := by
    intro pending
    induction pending with
    | nil => intro acc h; exact h
    | cons c rest ih =>
      intro acc h
      exact ih _ (buildStep_ok acc c h)
  exact hgen items [] ⟨by simp, by simp⟩

/-- Claim C6: `build_pytest_tree` merges chains by exact name match per
sibling list — `meta.total` is the number of input items, no two siblings
of any node (and no two roots) ever share a name (re-submitting a chain
reuses nodes instead of duplicating them), and Scenario A builds one root
`pkg`, one module, one class, and the two functions in input order. -/
theorem build_pytest_tree_merges :
    (∀ items : List (List NodeInfo), (build_pytest_tree items).total = items.length) ∧
    (∀ items : List (List NodeInfo),
      (((build_pytest_tree items).data.map Prod.fst).Nodup ∧
        ∀ kv ∈ (build_pytest_tree items).data,
          kv.2.name = kv.1 ∧ ChildNamesNodup kv.2)) ∧
    build_pytest_tree [scnItemOne, scnItemTwo] = scnExpected := by
  refine ⟨fun items => rfl, fun items => build_data_ok items, rfl⟩

/-- Witness for the membership-hypothesis clause of C6, at Scenario A's
root entry. -/
theorem build_pytest_tree_merges_witness :
    (build_pytest_tree [scnItemOne, scnItemTwo]).data.head?.all
        (fun kv => kv.2.name = kv.1) = true := by
  have hd := (build_pytest_tree_merges.2.1 [scnItemOne, scnItemTwo]).2
  have hmem : ((build_pytest_tree [scnItemOne, scnItemTwo]).data.head?).isSome := by
    rw [build_pytest_tree_merges.2.2]
    rfl
  match hh : (build_pytest_tree [scnItemOne, scnItemTwo]).data.head? with
  | none => rw [hh] at hmem; simp at hmem
  | some kv =>
    have hkv : kv ∈ (build_pytest_tree [scnItemOne, scnItemTwo]).data :=
      List.mem_of_mem_head? hh
    simp [hh, (hd kv hkv).1]

theorem countNode_eq (id : String) (t : TreeNode) :
    countNode id t = (if t.nodeid = id then 1 else 0) + countChildren id t.children := by
  cases t
  rfl

theorem countChildren_append (id : String) (l1 l2 : List TreeNode) :
    countChildren id (l1 ++ l2) = countChildren id l1 + countChildren id l2 := by
  induction l1 with
  | nil => simp [countChildren]
  | cons c cs ih => simp [countChildren, ih]; omega

theorem countNode_setChildren (id : String) (t : TreeNode) (cs : List TreeNode) :
    countNode id (t.setChildren cs) = (if t.nodeid = id then 1 else 0) + countChildren id cs := by
  cases t
  rfl

theorem newSuffixL_nil_children (ch : List NodeInfo) : newSuffixL [] ch = ch := by
  cases ch with
  | nil => rfl
  | cons n rest => simp [newSuffixL, findByName]

theorem countChain_cons (n : NodeInfo) (rest : List NodeInfo) (id : String) :
    countChain (n :: rest) id = (if n.nodeid = id then 1 else 0) + countChain rest id := by
  by_cases h : n.nodeid = id
  · simp [countChain, h]
    omega
  · simp [countChain, h]

/-- Merging a chain adds exactly the ids of its freshly materialized
suffix to the subtree's id count. -/
theorem add_count (ch : List NodeInfo) (t : TreeNode) (a b : Option String) (id : String) :
    countNode id (add_to_tree ch t a b) =
      countNode id t + countChain (newSuffixL t.children ch) id := by
  induction ch generalizing t a b with
  | nil => simp [add_to_tree, newSuffixL, countChain]
  | cons n rest ih =>
    have hstep : add_to_tree (n :: rest) t a b = t.setChildren (mergeChild n.name
        (create_node_data n a b)
        (fun c => add_to_tree rest c (some n.kind) (some n.name)) t.children) := rfl
    cases hfind : findByName t.children n.name with
    | some c =>
      obtain ⟨l1, l2, hcs, hl1, hm⟩ := mergeChild_found (create_node_data n a b)
        (fun c => add_to_tree rest c (some n.kind) (some n.name)) hfind
      have hns : newSuffixL t.children (n :: rest) = newSuffixL c.children rest := by
        simp [newSuffixL, hfind]
      rw [hstep, countNode_setChildren, hm, countChildren_append, hns,
        countNode_eq id t, hcs, countChildren_append]
      have hcnt := ih c (some n.kind) (some n.name)
      simp only [countChildren]
      omega
    | none =>
      have hm : mergeChild n.name (create_node_data n a b)
          (fun c => add_to_tree rest c (some n.kind) (some n.name)) t.children =
          t.children ++ [add_to_tree rest (create_node_data n a b)
            (some n.kind) (some n.name)] :=
        mergeChild_not_found (create_node_data n a b)
          (fun c => add_to_tree rest c (some n.kind) (some n.name)) hfind
      have hns : newSuffixL t.children (n :: rest) = n :: rest := by
        simp [newSuffixL, hfind]
      rw [hstep, countNode_setChildren, hm, countChildren_append, hns,
        countNode_eq id t, countChain_cons]
      have hcnt := ih (create_node_data n a b) (some n.kind) (some n.name)
      rw [show (create_node_data n a b).children = [] from rfl,
        newSuffixL_nil_children] at hcnt
      have hcreate : countNode id (create_node_data n a b) =
          (if n.nodeid = id then 1 else 0) := by
        rw [countNode_eq]
        simp [create_node_data, TreeNode.nodeid, TreeNode.children, countChildren]
      rw [hcreate] at hcnt
      simp only [countChildren]
      omega

theorem nodeAtSub_eq_list (t : TreeNode) (x : String) (xs : List String) :
    nodeAtSub t (x :: xs) = nodeAtList t.children (x :: xs) := rfl

/-- The fresh suffix is empty exactly when the whole name path already has
a node. -/
theorem newSuffixL_nil_iff (ch : List NodeInfo) (cs : List TreeNode) (hch : ch ≠ []) :
    (newSuffixL cs ch = [] ↔ (nodeAtList cs (namePath ch)).isSome) := by
  induction ch generalizing cs with
  | nil => exact absurd rfl hch
  | cons n rest ih =>
    cases hfind : findByName cs n.name with
    | some c =>
      cases rest with
      | nil => simp [newSuffixL, hfind, namePath, nodeAtList, nodeAtSub]
      | cons r0 rs =>
        have hrec := ih c.children (by simp)
        simp only [newSuffixL, hfind]
        rw [namePath_cons]
        simp only [nodeAtList, hfind, nodeAtSub_eq_list]
        rw [show namePath (r0 :: rs) = r0.name :: namePath rs from rfl]
        rw [show namePath (r0 :: rs) = r0.name :: namePath rs from rfl] at hrec
        exact hrec
    | none =>
      simp [newSuffixL, hfind, nodeAtList, namePath_cons]

theorem newSuffixL_suffix (ch : List NodeInfo) (cs : List TreeNode) :
    newSuffixL cs ch <:+ ch := by
  induction ch generalizing cs with
  | nil => simp [newSuffixL]
  | cons n rest ih =>
    cases hfind : findByName cs n.name with
    | some c =>
      simp only [newSuffixL, hfind]
      exact (ih c.children).trans (List.suffix_cons n rest)
    | none =>
      simp [newSuffixL, hfind]

theorem topNewSuffix_suffix (acc : List (String × TreeNode)) (ch : List NodeInfo) :
    topNewSuffix acc ch <:+ ch := by
  cases ch with
  | nil => simp [topNewSuffix]
  | cons root rest =>
    cases hget : assocGet acc root.name with
    | some t =>
      simp only [topNewSuffix, hget]
      exact (newSuffixL_suffix rest t.children).trans (List.suffix_cons root rest)
    | none => simp [topNewSuffix, hget]

theorem countChain_zero (s : List NodeInfo) (id : String)
    (h : ∀ e ∈ s, e.nodeid ≠ id) : countChain s id = 0 := by
  rw [countChain, List.length_eq_zero, List.filter_eq_nil_iff]
  intro e he
  simpa using h e he

theorem countChain_append (l1 l2 : List NodeInfo) (id : String) :
    countChain (l1 ++ l2) id = countChain l1 id + countChain l2 id := by
  simp [countChain, List.filter_append]

/-- A nonempty suffix of a chain whose id appears only at the very end
contains that id exactly once. -/
theorem countChain_suffix_one {c s : List NodeInfo} {l : NodeInfo} (id : String)
    (hs : s <:+ c) (hlast : c.getLast? = some l) (hid : l.nodeid = id)
    (hpos : ∀ e ∈ c.dropLast, e.nodeid ≠ id) (hne : s ≠ []) :
    countChain s id = 1 := by
  obtain ⟨pre, rfl⟩ := hs
  have hslast : s.getLast? = some l := by
    rwa [List.getLast?_append_of_ne_nil pre hne] at hlast
  have hdrop : (pre ++ s).dropLast = pre ++ s.dropLast :=
    List.dropLast_append_of_ne_nil pre hne
  have hdec : s.dropLast ++ [l] = s := List.dropLast_append_getLast? l hslast
  rw [← hdec, countChain_append]
  have h0 : countChain s.dropLast id = 0 := by
    refine countChain_zero _ _ ?_
    intro e he
    exact hpos e (by rw [hdrop]; exact List.mem_append.mpr (Or.inr he))
  rw [h0, countChain_cons, if_pos hid]
  rfl

theorem assocModify_get_found {α : Type} {l : List (String × α)} {k : String} {v : α}
    (f : α → α) (h : assocGet l k = some v) :
    assocGet (assocModify l k f) k = some (f v) := by
  induction l with
  | nil => simp [assocGet] at h
  | cons kv rest ih =>
    obtain ⟨k0, v0⟩ := kv
    by_cases hk : k0 = k
    · rw [assocGet, if_pos hk, Option.some.injEq] at h
      subst h
      simp [assocModify, hk, assocGet]
    · rw [assocGet, if_neg hk] at h
      simp [assocModify, hk, assocGet, ih h]

theorem assocModify_get_ne {α : Type} (l : List (String × α)) (k k' : String)
    (f : α → α) (h : k' ≠ k) :
    assocGet (assocModify l k f) k' = assocGet l k' := by
  induction l with
  | nil => rfl
  | cons kv rest ih =>
    obtain ⟨k0, v0⟩ := kv
    by_cases hk : k0 = k
    · subst hk
      have hne : ¬ k0 = k' := fun e => h (e ▸ rfl)
      simp [assocModify, assocGet, hne]
    · simp [assocModify, hk, assocGet, ih]

theorem assocGet_append_ne {α : Type} (l : List (String × α)) (k0 k : String) (v : α)
    (h : k0 ≠ k) : assocGet (l ++ [(k0, v)]) k = assocGet l k := by
  induction l with
  | nil => simp [assocGet, h]
  | cons kv rest ih =>
    obtain ⟨k1, v1⟩ := kv
    by_cases hk : k1 = k <;> simp [assocGet, hk, ih]

theorem assocGet_append_self {α : Type} (l : List (String × α)) (k : String) (v : α)
    (h : assocGet l k = none) : assocGet (l ++ [(k, v)]) k = some v := by
  induction l with
  | nil => simp [assocGet]
  | cons kv rest ih =>
    obtain ⟨k1, v1⟩ := kv
    by_cases hk : k1 = k
    · rw [assocGet, if_pos hk] at h
      simp at h
    · rw [assocGet, if_neg hk] at h
      simp [assocGet, hk, ih h]

theorem assocModify_append_new {α : Type} (l : List (String × α)) (k : String)
    (v : α) (f : α → α) (h : assocGet l k = none) :
    assocModify (l ++ [(k, v)]) k f = l ++ [(k, f v)] := by
  induction l with
  | nil => simp [assocModify]
  | cons kv rest ih =>
    obtain ⟨k1, v1⟩ := kv
    by_cases hk : k1 = k
    · rw [assocGet, if_pos hk] at h
      simp at h
    · rw [assocGet, if_neg hk] at h
      simp [assocModify, hk, ih h]

theorem assocGet_decomp {α : Type} {l : List (String × α)} {k : String} {v : α}
    (f : α → α) (h : assocGet l k = some v) :
    ∃ l1 l2, l = l1 ++ (k, v) :: l2 ∧ assocModify l k f = l1 ++ (k, f v) :: l2 := by
  induction l with
  | nil => simp [assocGet] at h
  | cons kv rest ih =>
    obtain ⟨k0, v0⟩ := kv
    by_cases hk : k0 = k
    · subst hk
      rw [assocGet, if_pos rfl, Option.some.injEq] at h
      subst h
      exact ⟨[], rest, rfl, by simp [assocModify]⟩
    · rw [assocGet, if_neg hk] at h
      obtain ⟨l1, l2, hl, hm⟩ := ih h
      exact ⟨(k0, v0) :: l1, l2, by simp [hl], by simp [assocModify, hk, hm]⟩

theorem assocGet_mem {α : Type} {l : List (String × α)} {k : String} {v : α}
    (h : assocGet l k = some v) : (k, v) ∈ l := by
  obtain ⟨l1, l2, hl, _⟩ := assocGet_decomp id h
  rw [hl]
  simp

theorem samePayload_refl (u : TreeNode) : samePayload u u :=
  ⟨rfl, rfl, rfl, rfl, rfl, rfl, rfl⟩

theorem buildStep_count (acc : List (String × TreeNode)) (chain : List NodeInfo)
    (id : String) :
    countAll (buildStep acc chain) id =
      countAll acc id + countChain (topNewSuffix acc chain) id := by
  cases chain with
  | nil => simp [buildStep, topNewSuffix, countChain]
  | cons root rest =>
    cases hget : assocGet acc root.name with
    | some t =>
      obtain ⟨l1, l2, hl, hm⟩ := assocGet_decomp
        (fun t => add_to_tree rest t (some root.kind) (some root.name)) hget
      have hf := add_count rest t (some root.kind) (some root.name) id
      have htop : topNewSuffix acc (root :: rest) = newSuffixL t.children rest := by
        simp [topNewSuffix, hget]
      rw [htop]
      simp only [buildStep, hget, Option.isSome_some, if_true, hm]
      conv_rhs => rw [hl]
      simp only [countAll, List.map_append, List.map_cons, List.sum_append,
        List.sum_cons]
      rw [hf]
      omega
    | none =>
      have hmod : assocModify (acc ++ [(root.name, create_node_data root none none)])
          root.name (fun t => add_to_tree rest t (some root.kind) (some root.name)) =
          acc ++ [(root.name, add_to_tree rest (create_node_data root none none)
            (some root.kind) (some root.name))] :=
        assocModify_append_new _ _ _ _ hget
      have hf := add_count rest (create_node_data root none none)
        (some root.kind) (some root.name) id
      rw [show (create_node_data root none none).children = [] from rfl,
        newSuffixL_nil_children] at hf
      have hcreate : countNode id (create_node_data root none none) =
          (if root.nodeid = id then 1 else 0) := by
        rw [countNode_eq]
        simp [create_node_data, TreeNode.nodeid, TreeNode.children, countChildren]
      simp only [buildStep, hget, Option.isSome_none, Bool.false_eq_true, if_false, hmod]
      simp only [countAll, List.map_append, List.map_cons, List.map_nil,
        List.sum_append, List.sum_cons, List.sum_nil, topNewSuffix, hget]
      rw [hf, hcreate, countChain_cons]
      omega

theorem buildStep_lookup_off (acc : List (String × TreeNode)) (chain : List NodeInfo)
    (q : List String) (hq : q ≠ []) (hnp : ¬ q <+: namePath chain) :
    lookupPath (buildStep acc chain) q = lookupPath acc q := by
  cases chain with
  | nil => rfl
  | cons root rest =>
    obtain ⟨x, qs, rfl⟩ : ∃ x qs, q = x :: qs := by
      cases q with
      | nil => exact absurd rfl hq
      | cons x qs => exact ⟨x, qs, rfl⟩
    by_cases hx : x = root.name
    · subst hx
      have hqs : ¬ qs <+: namePath rest := by
        intro hcon
        exact hnp (by rw [namePath_cons]; exact List.cons_prefix_cons.mpr ⟨rfl, hcon⟩)
      have hqs_ne : qs ≠ [] := by
        rintro rfl
        exact hqs List.nil_prefix
      cases hget : assocGet acc root.name with
      | some t =>
        simp only [buildStep, hget, Option.isSome_some, if_true]
        rw [lookupPath, lookupPath,
          assocModify_get_found (fun t => add_to_tree rest t (some root.kind)
            (some root.name)) hget, hget]
        exact add_lookup_off rest t (some root.kind) (some root.name) qs hqs_ne hqs
      | none =>
        simp only [buildStep, hget, Option.isSome_none, Bool.false_eq_true, if_false,
          assocModify_append_new _ _ _ _ hget]
        rw [lookupPath, lookupPath, assocGet_append_self _ _ _ hget, hget]
        show nodeAtSub (add_to_tree rest (create_node_data root none none)
          (some root.kind) (some root.name)) qs = none
        rw [add_lookup_off rest (create_node_data root none none) (some root.kind)
          (some root.name) qs hqs_ne hqs]
        obtain ⟨x', qs', rfl⟩ : ∃ x' qs', qs = x' :: qs' := by
          cases qs with
          | nil => exact absurd rfl hqs_ne
          | cons x' qs' => exact ⟨x', qs', rfl⟩
        exact nodeAtSub_create root none none x' qs'
    · cases hget : assocGet acc root.name with
      | some t =>
        simp only [buildStep, hget, Option.isSome_some, if_true]
        rw [lookupPath, lookupPath, assocModify_get_ne _ _ _ _ hx]
      | none =>
        simp only [buildStep, hget, Option.isSome_none, Bool.false_eq_true, if_false,
          assocModify_append_new _ _ _ _ hget]
        have hne : root.name ≠ x := fun e => hx e.symm
        rw [lookupPath, lookupPath, assocGet_append_ne _ _ _ _ hne]

theorem buildStep_lookup_old (acc : List (String × TreeNode)) (chain : List NodeInfo)
    (q : List String) (u : TreeNode) (hu : lookupPath acc q = some u) :
    ∃ w, lookupPath (buildStep acc chain) q = some w ∧ samePayload w u := by
  have hq : q ≠ [] := by
    rintro rfl
    simp [lookupPath] at hu
  by_cases hnp : q <+: namePath chain
  · cases chain with
    | nil =>
      exact absurd (List.prefix_nil.mp hnp) hq
    | cons root rest =>
      obtain ⟨x, qs, rfl⟩ : ∃ x qs, q = x :: qs := by
        cases q with
        | nil => exact absurd rfl hq
        | cons x qs => exact ⟨x, qs, rfl⟩
      rw [namePath_cons] at hnp
      obtain ⟨hx, hqs⟩ := List.cons_prefix_cons.mp hnp
      subst hx
      cases hget : assocGet acc root.name with
      | none => rw [lookupPath, hget] at hu; exact absurd hu (by simp)
      | some t =>
        rw [lookupPath, hget] at hu
        simp only [buildStep, hget, Option.isSome_some, if_true]
        cases qs with
        | nil =>
          obtain rfl : t = u := by simpa [nodeAtSub] using hu
          refine ⟨add_to_tree rest t (some root.kind) (some root.name), ?_, ?_⟩
          · rw [lookupPath, assocModify_get_found _ hget]
            rfl
          · exact add_to_tree_fields rest t _ _
        | cons x' qs' =>
          obtain ⟨w, hw, hsp⟩ := add_lookup_old rest t (some root.kind)
            (some root.name) (x' :: qs') u hqs (by simp) hu
          refine ⟨w, ?_, hsp⟩
          rw [lookupPath, assocModify_get_found _ hget]
          exact hw
  · exact ⟨u, by rw [buildStep_lookup_off acc chain q hq hnp]; exact hu,
      samePayload_refl u⟩

theorem buildStep_lookup_new (acc : List (String × TreeNode)) (chain : List NodeInfo)
    (q : List String) (hq : q ≠ []) (hp : q <+: namePath chain)
    (hnone : lookupPath acc q = none) :
    ∃ w, lookupPath (buildStep acc chain) q = some w ∧
      subPayload chain none none q w := by
  cases chain with
  | nil => exact absurd (List.prefix_nil.mp hp) hq
  | cons root rest =>
    obtain ⟨x, qs, rfl⟩ : ∃ x qs, q = x :: qs := by
      cases q with
      | nil => exact absurd rfl hq
      | cons x qs => exact ⟨x, qs, rfl⟩
    rw [namePath_cons] at hp
    obtain ⟨hx, hqs⟩ := List.cons_prefix_cons.mp hp
    subst hx
    have hlen : qs.length ≤ rest.length := by
      have hle := hqs.length_le
      simpa [namePath] using hle
    cases hget : assocGet acc root.name with
    | some t =>
      rw [lookupPath, hget] at hnone
      simp only [buildStep, hget, Option.isSome_some, if_true]
      cases qs with
      | nil => simp [nodeAtSub] at hnone
      | cons x' qs' =>
        obtain ⟨w, hw, hsp⟩ := add_lookup_new rest t (some root.kind)
          (some root.name) (x' :: qs') hqs (by simp) hnone
        refine ⟨w, ?_, subPayload_lift root rest none none (x' :: qs') w
          (by simp) hlen hsp⟩
        rw [lookupPath, assocModify_get_found _ hget]
        exact hw
    | none =>
      simp only [buildStep, hget, Option.isSome_none, Bool.false_eq_true, if_false,
        assocModify_append_new _ _ _ _ hget]
      cases qs with
      | nil =>
        refine ⟨add_to_tree rest (create_node_data root none none)
          (some root.kind) (some root.name), ?_, ?_⟩
        · rw [lookupPath, assocGet_append_self _ _ _ hget]
          rfl
        · obtain ⟨h1, h2, h3, h4, h5, h6, h7⟩ := add_to_tree_fields rest
            (create_node_data root none none) (some root.kind) (some root.name)
          refine ⟨⟨root, chainElt_one root rest, ?_, ?_, ?_, ?_, ?_⟩, ?_, ?_⟩
          · rw [h1]; rfl
          · rw [h2]; rfl
          · rw [h3]; rfl
          · rw [h6]; rfl
          · rw [h7]; rfl
          · intro _
            exact ⟨by rw [h4]; rfl, by rw [h5]; rfl⟩
          · intro hcon
            simp at hcon
      | cons x' qs' =>
        obtain ⟨w, hw, hsp⟩ := add_lookup_new rest (create_node_data root none none)
          (some root.kind) (some root.name) (x' :: qs') hqs (by simp)
          (nodeAtSub_create root none none x' qs')
        refine ⟨w, ?_, subPayload_lift root rest none none (x' :: qs') w
          (by simp) hlen hsp⟩
        rw [lookupPath, assocGet_append_self _ _ _ hget]
        exact hw

theorem buildStep_lookup_realized (acc : List (String × TreeNode))
    (chain : List NodeInfo) (q : List String) (hq : q ≠ [])
    (hp : q <+: namePath chain) :
    (lookupPath (buildStep acc chain) q).isSome := by
  cases hlk : lookupPath acc q with
  | some u =>
    obtain ⟨w, hw, _⟩ := buildStep_lookup_old acc chain q u hlk
    simp [hw]
  | none =>
    obtain ⟨w, hw, _⟩ := buildStep_lookup_new acc chain q hq hp hlk
    simp [hw]

theorem buildStep_lookup_mono (acc : List (String × TreeNode))
    (chain : List NodeInfo) (q : List String)
    (h : (lookupPath acc q).isSome) :
    (lookupPath (buildStep acc chain) q).isSome := by
  match hlk : lookupPath acc q with
  | none => rw [hlk] at h; simp at h
  | some u =>
    obtain ⟨w, hw, _⟩ := buildStep_lookup_old acc chain q u hlk
    simp [hw]

theorem topNewSuffix_nil_iff (acc : List (String × TreeNode)) (ch : List NodeInfo)
    (hch : ch ≠ []) :
    (topNewSuffix acc ch = [] ↔ (lookupPath acc (namePath ch)).isSome) := by
  cases ch with
  | nil => exact absurd rfl hch
  | cons root rest =>
    rw [namePath_cons]
    cases hget : assocGet acc root.name with
    | some t =>
      simp only [topNewSuffix, hget, lookupPath]
      cases rest with
      | nil => simp [newSuffixL, namePath, nodeAtSub]
      | cons r0 rs =>
        rw [show namePath (r0 :: rs) = r0.name :: namePath rs from rfl,
          nodeAtSub_eq_list]
        rw [show (r0.name : String) :: namePath rs = namePath (r0 :: rs) from rfl]
        exact newSuffixL_nil_iff (r0 :: rs) t.children (by simp)
    | none =>
      simp [topNewSuffix, hget, lookupPath]

theorem lookupPath_nil (q : List String) :
    lookupPath ([] : List (String × TreeNode)) q = none := by
  cases q with
  | nil => rfl
  | cons r qs => simp [lookupPath, assocGet]

theorem lookupPath_one (data : List (String × TreeNode)) (x : String) :
    lookupPath data [x] = assocGet data x := by
  cases hget : assocGet data x with
  | some t => simp [lookupPath, hget, nodeAtSub]
  | none => simp [lookupPath, hget]

theorem subPayload_congr (ch : List NodeInfo) (a b : Option String)
    (q : List String) (w u : TreeNode) (hsp : samePayload w u)
    (h : subPayload ch a b q u) : subPayload ch a b q w := by
  obtain ⟨h1, h2, h3, h4, h5, h6, h7⟩ := hsp
  obtain ⟨⟨e, he, f1, f2, f3, f4, f5⟩, hone, htwo⟩ := h
  refine ⟨⟨e, he, ?_, ?_, ?_, ?_, ?_⟩, ?_, ?_⟩
  · rw [h1, f1]
  · rw [h2, f2]
  · rw [h3, f3]
  · rw [h6, f4]
  · rw [h7, f5]
  · intro hk
    obtain ⟨p1, p2⟩ := hone hk
    exact ⟨by rw [h4, p1], by rw [h5, p2]⟩
  · intro hk
    obtain ⟨pe, hpe, p1, p2⟩ := htwo hk
    exact ⟨pe, hpe, by rw [h4, p1], by rw [h5, p2]⟩

theorem fold_payload (S : List (List NodeInfo)) :
    ∀ (its : List (List NodeInfo)) (acc : List (String × TreeNode)),
    (∀ ch ∈ its, ch ∈ S) →
    (∀ q w, q ≠ [] → lookupPath acc q = some w → Payload S q w) →
    ∀ q w, q ≠ [] → lookupPath (its.foldl buildStep acc) q = some w →
      Payload S q w := by
  intro its
  induction its with
  | nil => intro acc _ hacc q w hq hw; exact hacc q w hq hw
  | cons ch rest ih =>
    intro acc hsub hacc q w hq hw
    refine ih (buildStep acc ch) (fun x hx => hsub x (List.mem_cons_of_mem _ hx))
      ?_ q w hq hw
    intro q' w' hq' hw'
    by_cases hp : q' <+: namePath ch
    · cases hlk : lookupPath acc q' with
      | some u =>
        obtain ⟨w0, hw0, hsp⟩ := buildStep_lookup_old acc ch q' u hlk
        rw [hw'] at hw0
        obtain ⟨cc, hcc, hpre, hsp2⟩ := hacc q' u hq' hlk
        refine ⟨cc, hcc, hpre, subPayload_congr cc none none q' w' u ?_ hsp2⟩
        rw [Option.some.inj hw0]
        exact hsp
      | none =>
        obtain ⟨w0, hw0, hsp⟩ := buildStep_lookup_new acc ch q' hq' hp hlk
        rw [hw'] at hw0
        refine ⟨ch, hsub ch (List.mem_cons_self ch rest), hp, ?_⟩
        rw [Option.some.inj hw0]
        exact hsp
    · rw [buildStep_lookup_off acc ch q' hq' hp] at hw'
      exact hacc q' w' hq' hw'

theorem fold_mono (its : List (List NodeInfo)) :
    ∀ (acc : List (String × TreeNode)) (q : List String),
    (lookupPath acc q).isSome → (lookupPath (its.foldl buildStep acc) q).isSome := by
  induction its with
  | nil => intro acc q h; exact h
  | cons ch rest ih =>
    intro acc q h
    exact ih (buildStep acc ch) q (buildStep_lookup_mono acc ch q h)

theorem fold_realizes (c : List NodeInfo) (q : List String) (hq : q ≠ [])
    (hp : q <+: namePath c) :
    ∀ (its : List (List NodeInfo)) (acc : List (String × TreeNode)), c ∈ its →
    (lookupPath (its.foldl buildStep acc) q).isSome := by
  intro its
  induction its with
  | nil => intro acc h; simp at h
  | cons ch rest ih =>
    intro acc hc
    rcases List.mem_cons.mp hc with rfl | hcr
    · exact fold_mono rest (buildStep acc c) q (buildStep_lookup_realized acc c q hq hp)
    · exact ih (buildStep acc ch) hcr

open Classical in
theorem count_fold_aux (c : List NodeInfo) (l : NodeInfo) (id : String)
    (hcne : c ≠ []) (hl : c.getLast? = some l) (hid : l.nodeid = id)
    (hdrop : ∀ e ∈ c.dropLast, e.nodeid ≠ id) :
    ∀ (its : List (List NodeInfo)) (acc : List (String × TreeNode)),
    (∀ ch ∈ its, ch = c ∨ ((∀ e ∈ ch, e.nodeid ≠ id) ∧ ¬ namePath c <+: namePath ch)) →
    countAll (its.foldl buildStep acc) id =
      countAll acc id +
      (if c ∈ its ∧ lookupPath acc (namePath c) = none then 1 else 0) := by
  have hnp_ne : namePath c ≠ [] := by
    cases c with
    | nil => exact absurd rfl hcne
    | cons e es => simp [namePath]
  intro its
  induction its with
  | nil =>
    intro acc _
    simp
  | cons ch rest ih =>
    intro acc hch
    rw [List.foldl_cons,
      ih (buildStep acc ch) (fun x hx => hch x (List.mem_cons_of_mem _ hx)),
      buildStep_count acc ch id]
    rcases hch ch (List.mem_cons_self ch rest) with rfl | ⟨hno, hnpre⟩
    · have hreal : (lookupPath (buildStep acc ch) (namePath ch)).isSome :=
        buildStep_lookup_realized acc ch (namePath ch) hnp_ne (List.prefix_refl _)
      have hrest0 : (if ch ∈ rest ∧ lookupPath (buildStep acc ch) (namePath ch) = none
          then 1 else 0) = 0 := by
        rw [if_neg]
        rintro ⟨-, hnone⟩
        rw [hnone] at hreal
        simp at hreal
      rw [hrest0]
      cases hlk : lookupPath acc (namePath ch) with
      | some u =>
        have hsome : (lookupPath acc (namePath ch)).isSome := by simp [hlk]
        have htop : topNewSuffix acc ch = [] :=
          (topNewSuffix_nil_iff acc ch hcne).mpr hsome
        rw [htop]
        simp [countChain]
      | none =>
        have htopne : topNewSuffix acc ch ≠ [] := by
          intro hcon
          have hsm := (topNewSuffix_nil_iff acc ch hcne).mp hcon
          rw [hlk] at hsm
          simp at hsm
        have hone : countChain (topNewSuffix acc ch) id = 1 :=
          countChain_suffix_one id (topNewSuffix_suffix acc ch) hl hid hdrop htopne
        rw [hone, if_pos ⟨List.mem_cons_self ch rest, rfl⟩]
    · have hd : countChain (topNewSuffix acc ch) id = 0 := by
        apply countChain_zero
        intro e he
        exact hno e ((topNewSuffix_suffix acc ch).subset he)
      have hoff : lookupPath (buildStep acc ch) (namePath c) =
          lookupPath acc (namePath c) :=
        buildStep_lookup_off acc ch (namePath c) hnp_ne hnpre
      rw [hd, hoff]
      have hch_ne : ch ≠ c := by
        rintro rfl
        exact hnpre (List.prefix_refl _)
      have hiff : (c ∈ ch :: rest ∧ lookupPath acc (namePath c) = none) ↔
          (c ∈ rest ∧ lookupPath acc (namePath c) = none) := by
        constructor
        · rintro ⟨hm, hn⟩
          rcases List.mem_cons.mp hm with he | hm'
          · exact absurd he.symm hch_ne
          · exact ⟨hm', hn⟩
        · rintro ⟨hm, hn⟩
          exact ⟨List.mem_cons_of_mem _ hm, hn⟩
      simp only [hiff]
      omega

theorem fold_count (items : List (List NodeInfo)) (c : List NodeInfo) (l : NodeInfo)
    (hcons : Consistent items) (hc : c ∈ items) (hcne : c ≠ [])
    (hl : c.getLast? = some l)
    (huniq : ∀ cc ∈ items, ∀ e ∈ cc, e.nodeid = l.nodeid → cc = c)
    (hdrop : ∀ e ∈ c.dropLast, e.nodeid ≠ l.nodeid) :
    countAll (items.foldl buildStep []) l.nodeid = 1 := by
  have hside : ∀ ch ∈ items, ch = c ∨
      ((∀ e ∈ ch, e.nodeid ≠ l.nodeid) ∧ ¬ namePath c <+: namePath ch) := by
    intro ch hch
    by_cases hcc : ch = c
    · exact Or.inl hcc
    · refine Or.inr ⟨?_, ?_⟩
      · intro e he hecon
        exact hcc (huniq ch hch e he hecon)
      · intro hpre
        have htake : ch.take c.length = c.take c.length := by
          apply hcons ch hch c hc
          have h1 : namePath (ch.take c.length) = (namePath ch).take c.length := by
            simp [namePath]
          have h2 : namePath (c.take c.length) = namePath c := by
            rw [List.take_length]
          have h4 := List.prefix_iff_eq_take.mp hpre
          have h5 : (namePath c).length = c.length := by simp [namePath]
          rw [h5] at h4
          rw [h1, h2]
          exact h4.symm
        have hlc : l ∈ c := by
          cases c with
          | nil => exact absurd rfl hcne
          | cons e es =>
            have := List.getLast?_eq_getLast (e :: es) (by simp)
            rw [this] at hl
            have hlast := @List.getLast_mem _ (e :: es) (by simp)
            rwa [Option.some.inj hl] at hlast
        have hlmem : l ∈ ch := by
          have hmem2 : l ∈ ch.take c.length := by
            rw [htake, List.take_length]
            exact hlc
          exact List.mem_of_mem_take hmem2
        exact hcc (huniq ch hch l hlmem rfl)
  rw [count_fold_aux c l l.nodeid hcne hl rfl hdrop items [] hside]
  rw [if_pos ⟨hc, lookupPath_nil (namePath c)⟩]
  simp [countAll]

theorem nodeAtSub_snoc (q : List String) : ∀ (t : TreeNode) (x : String),
    nodeAtSub t (q ++ [x]) =
      (nodeAtSub t q).bind (fun u => findByName u.children x) := by
  induction q with
  | nil =>
    intro t x
    rw [List.nil_append, nodeAtSub_cons]
    cases hfind : findByName t.children x with
    | some c => simp [nodeAtSub, hfind]
    | none => simp [nodeAtSub, hfind]
  | cons y ys ih =>
    intro t x
    rw [List.cons_append, nodeAtSub_cons, nodeAtSub_cons]
    cases hfind : findByName t.children y with
    | some c => exact ih c x
    | none => rfl

theorem lookupPath_snoc (data : List (String × TreeNode)) (q : List String)
    (hq : q ≠ []) (x : String) :
    lookupPath data (q ++ [x]) =
      (lookupPath data q).bind (fun u => findByName u.children x) := by
  cases q with
  | nil => exact absurd rfl hq
  | cons r qs =>
    cases hget : assocGet data r with
    | some t =>
      rw [List.cons_append]
      show (match assocGet data r with
            | some t => nodeAtSub t (qs ++ [x])
            | none => none) = _
      rw [hget]
      show nodeAtSub t (qs ++ [x]) =
        (lookupPath data (r :: qs)).bind (fun u => findByName u.children x)
      rw [show lookupPath data (r :: qs) = nodeAtSub t qs by rw [lookupPath, hget]]
      exact nodeAtSub_snoc qs t x
    | none =>
      rw [List.cons_append]
      show (match assocGet data r with
            | some t => nodeAtSub t (qs ++ [x])
            | none => none) = _
      rw [hget, show lookupPath data (r :: qs) = none by rw [lookupPath, hget]]
      rfl

theorem chained_snoc : ∀ (ws : List TreeNode) (a b : TreeNode),
    Chained ws → ws.getLast? = some a → b ∈ a.children →
    b.parent_type = some a.type → b.parent_name = some a.name →
    Chained (ws ++ [b]) := by
  intro ws
  induction ws with
  | nil => intro a b _ hlast _ _ _; simp at hlast
  | cons w rest ih =>
    intro a b hws hlast hmem hpt hpn
    cases rest with
    | nil =>
      obtain rfl : w = a := by simpa using hlast
      exact ⟨hmem, hpt, hpn, trivial⟩
    | cons w2 rest2 =>
      obtain ⟨h1, h2, h3, h4⟩ := hws
      refine ⟨h1, h2, h3, ?_⟩
      exact ih a b h4 (by rwa [List.getLast?_cons_cons] at hlast) hmem hpt hpn

theorem namePath_take_length (c : List NodeInfo) (k : Nat) (hk : k ≤ c.length) :
    (namePath (c.take k)).length = k := by
  simp [namePath, List.length_take]
  omega

theorem payload_to_c (items : List (List NodeInfo)) (hcons : Consistent items)
    (c : List NodeInfo) (hc : c ∈ items) (k : Nat) (_hk1 : 1 ≤ k)
    (hk2 : k ≤ c.length) (w : TreeNode)
    (hp : Payload items (namePath (c.take k)) w) :
    subPayload c none none (namePath (c.take k)) w := by
  obtain ⟨cc, hcc, hpre, hsp⟩ := hp
  have hqlen : (namePath (c.take k)).length = k := namePath_take_length c k hk2
  have htake : cc.take k = c.take k := by
    apply hcons cc hcc c hc
    have h1 : namePath (cc.take k) = (namePath cc).take k := by
      simp [namePath]
    have h2 := List.prefix_iff_eq_take.mp hpre
    rw [hqlen] at h2
    rw [h1]
    exact h2.symm
  have hel : ∀ j, j ≤ k → chainElt cc j = chainElt c j := by
    intro j hj
    have e1 : (cc.take k).take j = cc.take j := by
      rw [List.take_take, Nat.min_eq_left hj]
    have e2 : (c.take k).take j = c.take j := by
      rw [List.take_take, Nat.min_eq_left hj]
    simp only [chainElt]
    rw [← e1, ← e2, htake]
  obtain ⟨⟨e, he, hfe⟩, hone, htwo⟩ := hsp
  refine ⟨⟨e, ?_, hfe⟩, hone, ?_⟩
  · rw [hqlen, ← hel k (le_refl k)]
    rw [hqlen] at he
    exact he
  · intro h2
    obtain ⟨pe, hpe, hp1, hp2⟩ := htwo h2
    refine ⟨pe, ?_, hp1, hp2⟩
    rw [hqlen, ← hel (k - 1) (by omega)]
    rw [hqlen] at hpe
    exact hpe

theorem fold_chain (items : List (List NodeInfo)) (c : List NodeInfo)
    (hcons : Consistent items) (hc : c ∈ items) (hcne : c ≠ []) :
    ∀ k, 1 ≤ k → k ≤ c.length →
    ∃ (ws : List TreeNode) (w r : TreeNode),
      ws.length = k ∧ Chained ws ∧ ws.getLast? = some w ∧ ws.head? = some r ∧
      (∃ key, assocGet (items.foldl buildStep []) key = some r) ∧
      lookupPath (items.foldl buildStep []) (namePath (c.take k)) = some w ∧
      subPayload c none none (namePath (c.take k)) w := by
  have hpay : ∀ q w, q ≠ [] →
      lookupPath (items.foldl buildStep []) q = some w → Payload items q w := by
    refine fold_payload items items [] (fun _ h => h) ?_
    intro q w _ hw
    rw [lookupPath_nil] at hw
    exact Option.noConfusion hw
  intro k hk1
  induction k, hk1 using Nat.le_induction with
  | base =>
    intro hk2
    obtain ⟨n0, c0, rfl⟩ : ∃ n0 c0, c = n0 :: c0 := by
      cases c with
      | nil => exact absurd rfl hcne
      | cons a b => exact ⟨a, b, rfl⟩
    have hq : namePath ((n0 :: c0).take 1) = [n0.name] := by
      simp [namePath]
    have hpre : [n0.name] <+: namePath (n0 :: c0) :=
      ⟨namePath c0, by rw [namePath_cons]; rfl⟩
    have hreal := fold_realizes (n0 :: c0) [n0.name] (by simp) hpre items [] hc
    match hlk : lookupPath (items.foldl buildStep []) [n0.name] with
    | none => rw [hlk] at hreal; simp at hreal
    | some w =>
      refine ⟨[w], w, w, rfl, trivial, rfl, rfl, ⟨n0.name, ?_⟩, ?_, ?_⟩
      · rw [← lookupPath_one]
        exact hlk
      · rfl
      · have hp := hpay [n0.name] w (by simp) hlk
        rw [← hq] at hp
        exact payload_to_c items hcons (n0 :: c0) hc 1 (le_refl 1) (by simp) w hp
  | succ k hk ihk =>
    intro hk2
    obtain ⟨ws, w, r, hlen, hcha, hlast, hhead, hroot, hlook, hsub⟩ := ihk (by omega)
    have hlt : k < c.length := by omega
    have htakes : c.take (k + 1) = c.take k ++ [c.get ⟨k, hlt⟩] := by
      rw [← List.take_concat_get c k hlt, List.concat_eq_append]
      rfl
    have hq1 : namePath (c.take (k + 1)) =
        namePath (c.take k) ++ [(c.get ⟨k, hlt⟩).name] := by
      simp only [htakes, namePath, List.map_append, List.map_cons, List.map_nil]
    have hq_ne : namePath (c.take k) ≠ [] := by
      intro hcon
      have hlq := namePath_take_length c k (by omega)
      rw [hcon] at hlq
      simp at hlq
      omega
    have hq1_ne : namePath (c.take (k + 1)) ≠ [] := by
      rw [hq1]
      simp
    have hpre1 : namePath (c.take (k + 1)) <+: namePath c :=
      List.IsPrefix.map _ (List.take_prefix (k + 1) c)
    have hreal := fold_realizes c (namePath (c.take (k + 1))) hq1_ne hpre1 items [] hc
    match hlk : lookupPath (items.foldl buildStep []) (namePath (c.take (k + 1))) with
    | none => rw [hlk] at hreal; simp at hreal
    | some w' =>
      have hlk0 := hlk
      have hsnoc := lookupPath_snoc (items.foldl buildStep [])
        (namePath (c.take k)) hq_ne ((c.get ⟨k, hlt⟩).name)
      have hfind : findByName w.children ((c.get ⟨k, hlt⟩).name) = some w' := by
        rw [hq1, hsnoc, hlook, Option.some_bind] at hlk0
        exact hlk0
      have hmem : w' ∈ w.children := (findByName_mem hfind).1
      have hsub' : subPayload c none none (namePath (c.take (k + 1))) w' :=
        payload_to_c items hcons c hc (k + 1) (by omega) hk2 w'
          (hpay _ w' hq1_ne hlk)
      have hq1len : (namePath (c.take (k + 1))).length = k + 1 :=
        namePath_take_length c (k + 1) hk2
      have hcopy := hsub'
      obtain ⟨-, -, htwo⟩ := hcopy
      obtain ⟨pe, hpe, hp1, hp2⟩ := htwo (by rw [hq1len]; omega)
      rw [hq1len] at hpe
      simp only [Nat.add_sub_cancel] at hpe
      have hcopy2 := hsub
      obtain ⟨⟨e, he, f1, f2, f3, f4, f5⟩, -, -⟩ := hcopy2
      have hqklen : (namePath (c.take k)).length = k :=
        namePath_take_length c k (by omega)
      rw [hqklen] at he
      rw [hpe] at he
      obtain rfl := Option.some.inj he
      have hpt : w'.parent_type = some w.type := by rw [hp1, f3]
      have hpn : w'.parent_name = some w.name := by rw [hp2, f1]
      refine ⟨ws ++ [w'], w', r, ?_, ?_, ?_, ?_, hroot, rfl, hsub'⟩
      · rw [List.length_append, hlen]
        rfl
      · exact chained_snoc ws w w' hcha hlast hmem hpt hpn
      · exact List.getLast?_concat ws
      · cases ws with
        | nil => simp at hhead
        | cons w0 ws0 => simpa using hhead

/-- Claim C7: for a consistent item list and a leaf item chain whose final
element's `nodeid` occurs in no other item and nowhere earlier in its own
chain, the tree built by `build_pytest_tree` contains exactly one node
carrying that `nodeid`, and that node is reached from a root entry of the
tree by a chain of children whose `parent_type`/`parent_name` fields each
name the node they hang from. -/
theorem build_unique_reachable (items : List (List NodeInfo)) (c : List NodeInfo)
    (l : NodeInfo) (hcons : Consistent items) (hc : c ∈ items) (hcne : c ≠ [])
    (hl : c.getLast? = some l)
    (huniq : ∀ cc ∈ items, ∀ e ∈ cc, e.nodeid = l.nodeid → cc = c)
    (hdrop : ∀ e ∈ c.dropLast, e.nodeid ≠ l.nodeid) :
    countAll (build_pytest_tree items).data l.nodeid = 1 ∧
    ∃ ws w r, Chained ws ∧ ws.head? = some r ∧
      (∃ key, assocGet (build_pytest_tree items).data key = some r) ∧
      ws.getLast? = some w ∧ w.nodeid = l.nodeid := by
  have hclen : 1 ≤ c.length := by
    cases c with
    | nil => exact absurd rfl hcne
    | cons a b => simp
  constructor
  · exact fold_count items c l hcons hc hcne hl huniq hdrop
  · obtain ⟨ws, w, r, hlen, hcha, hlast, hhead, hroot, hlook, hsub⟩ :=
      fold_chain items c hcons hc hcne c.length hclen (le_refl c.length)
    refine ⟨ws, w, r, hcha, hhead, hroot, hlast, ?_⟩
    obtain ⟨⟨e, he, f1, f2, f3, f4, f5⟩, -, -⟩ := hsub
    rw [namePath_take_length c c.length (le_refl c.length)] at he
    have hce : chainElt c c.length = some l := by
      simp only [chainElt, List.take_length]
      exact hl
    rw [hce] at he
    obtain rfl := Option.some.inj he
    exact f5

/-- Witness for C7 at Scenario A: the `test_two` leaf of the second item
occurs exactly once in the built tree and hangs off a rooted parent chain. -/
theorem build_unique_reachable_witness :
    countAll (build_pytest_tree [scnItemOne, scnItemTwo]).data
        "pkg/test_a.py::TestX::test_two" = 1 ∧
    ∃ ws w r, Chained ws ∧ ws.head? = some r ∧
      (∃ key, assocGet (build_pytest_tree [scnItemOne, scnItemTwo]).data key
        = some r) ∧
      ws.getLast? = some w ∧ w.nodeid = "pkg/test_a.py::TestX::test_two" := by
  have hconsW : Consistent [scnItemOne, scnItemTwo] := by
    intro c1 h1 c2 h2 k hk
    have hone : scnItemOne.length = 4 := rfl
    have htwo : scnItemTwo.length = 4 := rfl
    rcases List.mem_cons.mp h1 with rfl | h1'
    · rcases List.mem_cons.mp h2 with rfl | h2'
      · rfl
      · rcases List.mem_cons.mp h2' with rfl | h2''
        · rcases k with - | - | - | - | n
          case _ => rfl
          case _ => rfl
          case _ => rfl
          case _ => rfl
          exfalso
          rw [List.take_of_length_le (by rw [hone]; omega),
            List.take_of_length_le (by rw [htwo]; omega)] at hk
          exact absurd hk (by decide)
        · exact absurd h2'' (List.not_mem_nil c2)
    · rcases List.mem_cons.mp h1' with rfl | h1''
      · rcases List.mem_cons.mp h2 with rfl | h2'
        · rcases k with - | - | - | - | n
          case _ => rfl
          case _ => rfl
          case _ => rfl
          case _ => rfl
          exfalso
          rw [List.take_of_length_le (by rw [htwo]; omega),
            List.take_of_length_le (by rw [hone]; omega)] at hk
          exact absurd hk (by decide)
        · rcases List.mem_cons.mp h2' with rfl | h2''
          · rfl
          · exact absurd h2'' (List.not_mem_nil c2)
      · exact absurd h1'' (List.not_mem_nil c1)
  have hcW : scnItemTwo ∈ [scnItemOne, scnItemTwo] :=
    List.mem_cons_of_mem _ (List.mem_cons_self _ _)
  have hcneW : scnItemTwo ≠ [] := by simp [scnItemTwo]
  have hlW : scnItemTwo.getLast? =
      some ⟨"test_two", "pkg/test_a.py", "FUNCTION", 3,
        "pkg/test_a.py::TestX::test_two"⟩ := rfl
  have huniqW : ∀ cc ∈ [scnItemOne, scnItemTwo], ∀ e ∈ cc,
      e.nodeid = "pkg/test_a.py::TestX::test_two" → cc = scnItemTwo := by
    intro cc hcc e he hee
    rcases List.mem_cons.mp hcc with rfl | hcc'
    · exfalso
      have he2 : e ∈ ([⟨"pkg", "pkg", "DIR", 0, "pkg"⟩,
          ⟨"test_a.py", "pkg/test_a.py", "MODULE", 0, "pkg/test_a.py"⟩,
          ⟨"TestX", "pkg/test_a.py", "CLASS", 1, "pkg/test_a.py::TestX"⟩,
          ⟨"test_one", "pkg/test_a.py", "FUNCTION", 2,
            "pkg/test_a.py::TestX::test_one"⟩] : List NodeInfo) := he
      simp only [List.mem_cons, List.not_mem_nil, or_false] at he2
      rcases he2 with rfl | rfl | rfl | rfl
      all_goals simp at hee
    · rcases List.mem_cons.mp hcc' with rfl | hcc''
      · rfl
      · exact absurd hcc'' (List.not_mem_nil cc)
  have hdropW : ∀ e ∈ scnItemTwo.dropLast,
      e.nodeid ≠ "pkg/test_a.py::TestX::test_two" := by
    intro e he hee
    have he2 : e ∈ ([⟨"pkg", "pkg", "DIR", 0, "pkg"⟩,
        ⟨"test_a.py", "pkg/test_a.py", "MODULE", 0, "pkg/test_a.py"⟩,
        ⟨"TestX", "pkg/test_a.py", "CLASS", 1, "pkg/test_a.py::TestX"⟩] :
        List NodeInfo) := he
    simp only [List.mem_cons, List.not_mem_nil, or_false] at he2
    rcases he2 with rfl | rfl | rfl
    all_goals simp at hee
  exact build_unique_reachable [scnItemOne, scnItemTwo] scnItemTwo
    ⟨"test_two", "pkg/test_a.py", "FUNCTION", 3, "pkg/test_a.py::TestX::test_two"⟩
    hconsW hcW hcneW hlW huniqW hdropW
